import Mathlib
/-!
Verification of the backup-operator archive engine
(`internal/backup/archive.go`).
The Go source is shallowly embedded: strings are Lean `String`s manipulated
through character-level helpers that mirror the `strings` and `path/filepath`
standard-library functions used by the source, the filesystem directory that
`CleanupArchives` mutates is an explicit list of directory entries, and the
Kubernetes API server that `RestoreBackup` talks to is an explicit state
threaded through the calls.
-/

namespace BackupOperator

/-! ## Character-level string primitives (Go `strings` / `path` semantics) -/

/-- Go `strings.Split(s, "/")` on the character list: splits at every `'/'`,
keeping empty fields (`Split` never drops fields and never returns an empty
list). -/
def splitSlashAux : List Char → List Char → List String
  | [], acc => [String.mk acc.reverse]
  | c :: rest, acc =>
    if c = '/' then String.mk acc.reverse :: splitSlashAux rest []
    else splitSlashAux rest (c :: acc)

/-- Go `strings.Split(s, "/")`. -/
def splitSlash (s : String) : List String := splitSlashAux s.data []

/-- Joins components with `'/'` separators; inverse of `splitSlash` on
slash-free components (Go `strings.Join(parts, "/")`). -/
def joinSlash : List String → String
  | [] => ""
  | [s] => s
  | s :: rest => s ++ "/" ++ joinSlash rest

/-- Boolean list-prefix test (Go `strings.HasPrefix` on character lists). -/
def listIsPre : List Char → List Char → Bool
  | [], _ => true
  | _ :: _, [] => false
  | a :: as, b :: bs => a = b && listIsPre as bs

/-- Go `strings.HasPrefix(s, p)`. -/
def strStartsWith (s p : String) : Bool := listIsPre p.data s.data

/-- Go `strings.HasSuffix(s, p)`. -/
def strEndsWith (s p : String) : Bool := listIsPre p.data.reverse s.data.reverse

/-- Go `strings.TrimPrefix(s, p)`: drops `p` from the front when it is a
prefix, otherwise returns `s` unchanged. -/
def strDropPre (s p : String) : String :=
  if strStartsWith s p then String.mk (s.data.drop p.data.length) else s

/-- Go `strings.TrimSuffix(s, p)`: drops `p` from the end when it is a
suffix, otherwise returns `s` unchanged. -/
def strDropSuf (s p : String) : String :=
  if strEndsWith s p then String.mk (s.data.take (s.data.length - p.data.length))
  else s

/-- Go lexicographic byte order `a < b` on strings, on character lists. -/
def listLtChar : List Char → List Char → Bool
  | [], [] => false
  | [], _ :: _ => true
  | _ :: _, [] => false
  | a :: as, b :: bs => if a < b then true else if b < a then false else listLtChar as bs

/-- Go `a < b` on strings. -/
def strLt (a b : String) : Bool := listLtChar a.data b.data

/-- Go `s.contains('/')` at the character level. -/
def hasSlash (s : String) : Bool := s.data.any (fun c => c = '/')

/-! ## Go `path.Clean` (what `filepath.Clean` is on a slash-separated OS) -/

/-- One step of the `path.Clean` element loop: empty and `"."` elements are
dropped; `".."` pops the last retained element when possible, is dropped at
the root of a rooted path, and is retained for a rootless path that cannot
backtrack; every other element is retained. -/
def cleanStep (rooted : Bool) (acc : List String) (c : String) : List String :=
  if c = "" ∨ c = "." then acc
  else if c = ".." then
    if acc ≠ [] ∧ acc.getLast? ≠ some ".." then acc.dropLast
    else if rooted then acc
    else acc ++ [".."]
  else acc ++ [c]

/-- The retained elements of `path.Clean`. -/
def cleanComponents (rooted : Bool) (cs : List String) : List String :=
  cs.foldl (cleanStep rooted) []

/-- Go `path.Clean`: lexical canonicalization removing `.`, empty and (where
possible) `..` elements; returns `"."` for an empty result of a rootless
path and `"/"` for an empty result of a rooted one. -/
def pathClean (p : String) : String :=
  if p = "" then "."
  else
    let rooted := strStartsWith p "/"
    let out := cleanComponents rooted (splitSlash p)
    if out = [] then (if rooted then "/" else ".")
    else (if rooted then "/" else "") ++ joinSlash out

/-- Go `filepath.Join`: drops empty elements, joins with `'/'`, and cleans;
returns `""` when every element is empty. -/
def filepathJoin (elems : List String) : String :=
  let ne := elems.filter (fun e => e ≠ "")
  if ne = [] then "" else pathClean (joinSlash ne)

/-! ## Storage path resolution (`resolveStoragePath`) -/

/-- The fixed sandbox root used by `resolveStoragePath` (`nodeTmp`). -/
def nodeTmp : String := "/tmp"

/-- Embedding of `resolveStoragePath` from `internal/backup/archive.go`:
a `host://` destination is stripped of its scheme, rooted and cleaned, and
re-rooted under the `/tmp` sandbox; any other destination is returned as a
literal path unchanged. -/
def resolveStoragePath (storagePath : String) : String :=
  if strStartsWith storagePath "host://" then
    let hostPath := strDropPre storagePath "host://"
    let hostPath := pathClean ("/" ++ strDropPre hostPath "/")
    if hostPath = "/" then nodeTmp
    else if strStartsWith hostPath nodeTmp then
      let suffix := strDropPre hostPath nodeTmp
      filepathJoin [nodeTmp, strDropPre suffix "/"]
    else
      filepathJoin [nodeTmp, strDropPre hostPath "/"]
  else storagePath

/-- A path lies under the sandbox root: it is the root itself or a proper
descendant of it. -/
def underSandbox (p : String) : Bool :=
  p = nodeTmp || strStartsWith p (nodeTmp ++ "/")

/-! ## Retention (`CleanupArchives`)

The destination directory is embedded as an explicit value: `none` models a
missing directory (`os.ReadDir` returning `ErrNotExist`), `some entries`
models an existing directory with the given entries.  `os.Remove` becomes
removal from the entry list; time is an explicit `now` in seconds. -/

/-- One directory entry as seen by `os.ReadDir`. -/
structure DirEntry where
  name : String
  isDir : Bool
  modTime : Int
deriving DecidableEq, Repr

/-- The archive-file test from `CleanupArchives`: a non-directory entry named
`cluster-backup-*.tar.gz`. -/
def isArchiveFile (e : DirEntry) : Bool :=
  !e.isDir && strStartsWith e.name "cluster-backup-" && strEndsWith e.name ".tar.gz"

/-- The sort order of `sort.Slice(files, ...Name() < ...Name())`:
`a` precedes `b` when `b.name` is not strictly below `a.name`. -/
def nameLe (a b : DirEntry) : Prop := strLt b.name a.name = false

instance instDecNameLe : DecidableRel nameLe := fun a b =>
  instDecidableEqBool (strLt b.name a.name) false

/-- Sorting directory entries by file name. -/
def sortByName (l : List DirEntry) : List DirEntry := List.insertionSort nameLe l

/-- The age cutoff `time.Now().Add(-retentionDays * 24h)` in seconds. -/
def cutoffOf (now days : Int) : Int := now - days * 86400

/-- An entry survives the age phase unless it is an archive file whose
modification time is strictly before the cutoff. -/
def ageSurvives (cutoff : Int) (e : DirEntry) : Bool :=
  !(isArchiveFile e && decide (e.modTime < cutoff))

/-- The age phase of `CleanupArchives`: when a retention length is set,
every archive file older than the cutoff is removed. -/
def agePhase (dir : List DirEntry) (retentionDays : Option Int) (now : Int) :
    List DirEntry :=
  match retentionDays with
  | none => dir
  | some d => dir.filter (ageSurvives (cutoffOf now d))

/-- The names deleted by the count phase: when the archive files (sorted by
name) exceed the ceiling, the excess oldest (name-smallest) ones. -/
def doomedNames (dir : List DirEntry) (maxArchives : Nat) : List String :=
  let files := sortByName (dir.filter isArchiveFile)
  if maxArchives < files.length then
    (files.take (files.length - maxArchives)).map DirEntry.name
  else []

/-- The count phase of `CleanupArchives`: when a ceiling is set, the
directory is re-read and the excess oldest archive files are removed. -/
def countPhase (dir : List DirEntry) (maxArchives : Option Nat) : List DirEntry :=
  match maxArchives with
  | none => dir
  | some m => dir.filter (fun e => decide (¬ e.name ∈ doomedNames dir m))

/-- Embedding of `CleanupArchives` from `internal/backup/archive.go`: a
missing destination directory is success with nothing to do; otherwise the
age phase runs, then the count phase over the re-read directory. -/
def CleanupArchives (dir : Option (List DirEntry)) (retentionDays : Option Int)
    (maxArchives : Option Nat) (now : Int) : Except String (Option (List DirEntry)) :=
  match dir with
  | none => .ok none
  | some d => .ok (some (countPhase (agePhase d retentionDays now) maxArchives))

/-- Demo archive entries for the spec's concrete retention case (now = 0,
times in seconds): ages 48h, 2h, 1h, 0h. -/
def demoAge48 : DirEntry := ⟨"cluster-backup-20240101-000000.tar.gz", false, -172800⟩

def demoAge2 : DirEntry := ⟨"cluster-backup-20250101-010000.tar.gz", false, -7200⟩

def demoAge1 : DirEntry := ⟨"cluster-backup-20250102-010000.tar.gz", false, -3600⟩

def demoAge0 : DirEntry := ⟨"cluster-backup-20250103-010000.tar.gz", false, 0⟩

def demoDir : List DirEntry := [demoAge48, demoAge2, demoAge1, demoAge0]

/-- A group/version/resource coordinate (`schema.GroupVersionResource`). -/
structure GVR where
  group : String
  version : String
  resource : String
deriving DecidableEq, Repr

/-- The archive entry path `backupResource` produces for one object,
relative to the staging root: `namespaces/<ns>/<group>/<version>/<resource>/
<name>.json` for namespaced objects and `cluster/<group>/<version>/
<resource>/<name>.json` for cluster-scoped ones, with `filepath.Join`
dropping an empty (core) group segment. -/
def archiveEntryPath (gvr : GVR) (ns name : String) : String :=
  if ns ≠ "" then
    filepathJoin ["namespaces", ns, gvr.group, gvr.version, gvr.resource,
      name ++ ".json"]
  else
    filepathJoin ["cluster", gvr.group, gvr.version, gvr.resource,
      name ++ ".json"]

/-- The segment-decoding body of `parseArchiveEntry`: the last segment
(minus `.json`) is the object name, and the leading segments are decoded by
scope prefix and segment count (two segments after the prefix mean the core
group, three a named group). -/
def parseParts (parts : List String) : Except String (GVR × String × String) :=
  if parts.length < 2 then .error "archive path is malformed"
  else
    let name := strDropSuf (parts.getLastD "") ".json"
    if name = "" then .error "archive entry missing resource name"
    else
      let dirParts := parts.dropLast
      if dirParts.headD "" = "cluster" then
        let remainder := dirParts.tail
        if remainder.length = 2 then
          .ok (⟨"", remainder.getD 0 "", remainder.getD 1 ""⟩, "", name)
        else if remainder.length = 3 then
          .ok (⟨remainder.getD 0 "", remainder.getD 1 "", remainder.getD 2 ""⟩,
            "", name)
        else .error "unexpected cluster path format"
      else if dirParts.headD "" = "namespaces" then
        if dirParts.length < 3 then .error "unexpected namespaced path format"
        else
          let ns := dirParts.getD 1 ""
          let remainder := dirParts.drop 2
          if remainder.length = 2 then
            .ok (⟨"", remainder.getD 0 "", remainder.getD 1 ""⟩, ns, name)
          else if remainder.length = 3 then
            .ok (⟨remainder.getD 0 "", remainder.getD 1 "", remainder.getD 2 ""⟩,
              ns, name)
          else .error "unexpected namespaced path format"
      else .error "unrecognised archive prefix"

/-- Embedding of `parseArchiveEntry` from `internal/backup/archive.go`:
cleans the path, splits it on `/`, and decodes the segments. -/
def parseArchiveEntry (path : String) : Except String (GVR × String × String) :=
  parseParts (splitSlash (pathClean path))

/-- A path segment that survives cleaning and splitting intact: nonempty,
not a dot element, and slash-free. -/
def validSeg (s : String) : Prop :=
  s ≠ "" ∧ s ≠ "." ∧ s ≠ ".." ∧ hasSlash s = false

instance instDecValidSeg (s : String) : Decidable (validSeg s) := by
  unfold validSeg
  infer_instance

/-! ## Namespace resolution and discovery eligibility -/

/-- Go `unicode.IsSpace` restricted to the ASCII whitespace characters
(namespace names and kind filters are ASCII). -/
def isSpaceChar (c : Char) : Bool :=
  c = ' ' || c = '\t' || c = '\n' || c = '\x0b' || c = '\x0c' || c = '\r'

/-- Go `strings.TrimSpace`: drops leading and trailing whitespace. -/
def trimSpace (s : String) : String :=
  String.mk (((s.data.dropWhile isSpaceChar).reverse.dropWhile isSpaceChar).reverse)

/-- Go `strings.ToLower` (ASCII case folding, per character). -/
def strToLower (s : String) : String := String.mk (s.data.map Char.toLower)

/-- Go `contains(slice, item)` from `internal/backup/archive.go`. -/
def contains (slice : List String) (item : String) : Bool :=
  slice.any (fun s => s = item)

/-- Embedding of `makeStringSet`: normalizes every value and keeps the
nonempty results.  The Go map is used only for membership and emptiness, so
a list is a faithful model. -/
def makeStringSet (values : List String) (normalize : String → String) : List String :=
  (values.map normalize).filter (fun v => v ≠ "")

/-- Embedding of `BackupOptions` from `internal/backup/archive.go`. -/
structure BackupOptions where
  includeNamespaces : List String
  excludeNamespaces : List String
  includeClusterResources : Bool
  resourceTypes : List String

/-- Embedding of `getNamespacesToBackup`: a non-empty include list is
returned verbatim without consulting the server; otherwise the server's
namespace list (an `Except` value: `.error` models a failed listing call)
is filtered by the trimmed exclude set. -/
def getNamespacesToBackup (opts : BackupOptions)
    (serverList : Except Unit (List String)) : Except Unit (List String) :=
  if opts.includeNamespaces ≠ [] then .ok opts.includeNamespaces
  else
    match serverList with
    | .error e => .error e
    | .ok items =>
      let excludeSet := makeStringSet opts.excludeNamespaces (fun s => trimSpace s)
      .ok (items.filter
        (fun ns => !(decide (excludeSet.length > 0) && contains excludeSet ns)))

/-- One discovered API resource (`metav1.APIResource`). -/
structure APIResource where
  name : String
  kind : String
  namespaced : Bool
  verbs : List String

/-- The normalized resource-type filter built at the top of `CreateBackup`:
trimmed, case-folded, empties dropped. -/
def resourceTypeFilterOf (opts : BackupOptions) : List String :=
  makeStringSet opts.resourceTypes (fun s => strToLower (trimSpace s))

/-- The eligibility guards of the `CreateBackup` discovery loop: a resource
is captured only when its name has no `/` (not a subresource), its verbs
include `list`, and, when the normalized type filter is non-empty, its
lower-cased kind is a member. -/
def resourceEligible (opts : BackupOptions) (res : APIResource) : Bool :=
  let filter := resourceTypeFilterOf opts
  !(hasSlash res.name) && contains res.verbs "list" &&
    !(decide (filter.length > 0) && !(contains filter (strToLower res.kind)))

/-! ## Restore (`RestoreBackup`)

The unmarshalled JSON documents are embedded as association lists of
string-keyed fields (`other` collapses the value shapes the code never
inspects); the Kubernetes API server is an explicit store from
(coordinate, namespace, name) keys to stored bodies with a resource-version
counter.  Creating a namespaced object requires its namespace object to
exist, creating an existing key fails with "already exists", and updating
checks the resource-version token — the server semantics `RestoreBackup`'s
create/get/update calls interact with. -/

/-- A JSON value as unmarshalled into `map[string]interface{}`. -/
inductive Json where
  | str : String → Json
  | obj : List (String × Json) → Json
  | other : Json

/-- Field lookup in a JSON object (Go map indexing). -/
def jsonLookup (fields : List (String × Json)) (k : String) : Option Json :=
  (fields.find? (fun p => p.1 = k)).map (fun p => p.2)

/-- Field assignment in a JSON object (Go map assignment). -/
def setKey (fields : List (String × Json)) (k : String) (v : Json) :
    List (String × Json) :=
  if (fields.find? (fun p => p.1 = k)).isSome then
    fields.map (fun p => if p.1 = k then (k, v) else p)
  else fields ++ [(k, v)]

/-- The `metadata` object of a document, empty when absent or not an
object (what `obj["metadata"].(map[string]interface{})` yields). -/
def metaOf (obj : List (String × Json)) : List (String × Json) :=
  match jsonLookup obj "metadata" with
  | some (Json.obj m) => m
  | _ => []

/-- Go `unstructured.GetName`: `metadata.name` when it is a string, else `""`. -/
def getName (obj : List (String × Json)) : String :=
  match jsonLookup (metaOf obj) "name" with
  | some (Json.str s) => s
  | _ => ""

/-- Go `unstructured.GetResourceVersion`. -/
def getResourceVersion (obj : List (String × Json)) : String :=
  match jsonLookup (metaOf obj) "resourceVersion" with
  | some (Json.str s) => s
  | _ => ""

/-- Sets one string field under `metadata`, creating `metadata` as needed. -/
def setMetaField (obj : List (String × Json)) (k : String) (v : String) :
    List (String × Json) :=
  setKey obj "metadata" (Json.obj (setKey (metaOf obj) k (Json.str v)))

/-- Go `unstructured.SetNamespace`. -/
def setNamespace (obj : List (String × Json)) (ns : String) :
    List (String × Json) :=
  setMetaField obj "namespace" ns

/-- Go `unstructured.SetResourceVersion`. -/
def setResourceVersion (obj : List (String × Json)) (rv : String) :
    List (String × Json) :=
  setMetaField obj "resourceVersion" rv

/-- Embedding of `ensureMetadata`: reads (or creates) the `metadata` object,
prefers a nonempty embedded name over the path-derived one, fails when
neither yields a name, then writes the name and (for namespaced objects)
the namespace back. -/
def ensureMetadata (obj : List (String × Json)) (nm ns : String) :
    Except String (List (String × Json)) :=
  let metaFields := metaOf obj
  let nm' := match jsonLookup metaFields "name" with
    | some (Json.str s) => if s ≠ "" then s else nm
    | _ => nm
  if nm' = "" then .error "resource missing metadata.name"
  else
    let m1 := setKey metaFields "name" (Json.str nm')
    let m2 := if ns ≠ "" then setKey m1 "namespace" (Json.str ns) else m1
    .ok (setKey obj "metadata" (Json.obj m2))

/-- The identity of one stored object: coordinate, namespace (empty for
cluster scope) and name. -/
abbrev ResKey := GVR × String × String

/-- The modelled API server: stored bodies by key, plus the next
resource-version number it will hand out. -/
structure ClusterState where
  store : List (ResKey × List (String × Json))
  nextRv : Nat

/-- Lookup of a live object. -/
def lookupStore (s : ClusterState) (k : ResKey) :
    Option (List (String × Json)) :=
  (s.store.find? (fun p => p.1 = k)).map (fun p => p.2)

/-- The coordinate of namespace objects. -/
def nsGVR : GVR := ⟨"", "v1", "namespaces"⟩

/-- Whether a namespace object exists in the store. -/
def namespaceExists (s : ClusterState) (ns : String) : Bool :=
  (lookupStore s (nsGVR, "", ns)).isSome

/-- The API error kinds the restore path distinguishes. -/
inductive ApiError where
  | alreadyExists
  | notFound
  | namespaceMissing
  | conflict
deriving DecidableEq, Repr

/-- Server `Create`: fails with `alreadyExists` on a present key, fails when
a namespaced object's namespace does not exist, otherwise stores the body
stamped with a fresh resource version. -/
def apiCreate (s : ClusterState) (k : ResKey)
    (obj : List (String × Json)) : Except ApiError ClusterState :=
  if (lookupStore s k).isSome then .error .alreadyExists
  else if k.2.1 ≠ "" && !(namespaceExists s k.2.1) then .error .namespaceMissing
  else
    .ok ⟨s.store ++ [(k, setResourceVersion obj (toString s.nextRv))],
      s.nextRv + 1⟩

/-- Server `Get`. -/
def apiGet (s : ClusterState) (k : ResKey) :
    Except ApiError (List (String × Json)) :=
  match lookupStore s k with
  | some body => .ok body
  | none => .error .notFound

/-- Server `Update`: requires the key to exist and the caller's
resource-version token to match the stored one. -/
def apiUpdate (s : ClusterState) (k : ResKey)
    (obj : List (String × Json)) : Except ApiError ClusterState :=
  match lookupStore s k with
  | none => .error .notFound
  | some existing =>
    if getResourceVersion obj ≠ getResourceVersion existing then .error .conflict
    else
      .ok ⟨s.store.map (fun p =>
          if p.1 = k then (k, setResourceVersion obj (toString s.nextRv)) else p),
        s.nextRv + 1⟩

/-- Embedding of `archivedResource` from `internal/backup/archive.go`. -/
structure ArchivedResource where
  gvr : GVR
  ns : String
  object : List (String × Json)

/-- One tar entry as the restore loop sees it: its path, whether it is a
regular file, and its body (`none` models a body that fails to unmarshal
into a JSON object). -/
structure RawEntry where
  name : String
  isReg : Bool
  content : Option (List (String × Json))

/-- Boolean error test on `Except`. -/
def isErr {ε α : Type} : Except ε α → Bool
  | .error _ => true
  | .ok _ => false

/-- The per-entry work of the restore read loop: skip non-regular and
non-`.json` entries, parse the path, unmarshal, fix up metadata. -/
def processEntry (e : RawEntry) : Except String (Option ArchivedResource) :=
  if !e.isReg then .ok none
  else if !(strEndsWith e.name ".json") then .ok none
  else
    match parseArchiveEntry e.name with
    | .error msg => .error msg
    | .ok (gvr, ns, nm) =>
      match e.content with
      | none => .error "failed to unmarshal entry"
      | some obj =>
        match ensureMetadata obj nm ns with
        | .error msg => .error msg
        | .ok obj' => .ok (some ⟨gvr, ns, obj'⟩)

/-- The read loop of `RestoreBackup`: processes every entry, stopping at the
first failure, and partitions the results into cluster-scoped and
namespaced lists in stream order. -/
def parsePhase :
    List RawEntry → Except String (List ArchivedResource × List ArchivedResource)
  | [] => .ok ([], [])
  | e :: rest =>
    match processEntry e with
    | .error msg => .error msg
    | .ok none => parsePhase rest
    | .ok (some res) =>
      match parsePhase rest with
      | .error msg => .error msg
      | .ok (cs, nss) =>
        if res.ns = "" then .ok (res :: cs, nss) else .ok (cs, res :: nss)

/-- What happened to one applied object. -/
inductive RestoreAction where
  | created (key : ResKey)
  | updated (key : ResKey)
deriving DecidableEq, Repr

/-- The key an action touched. -/
def actionKey : RestoreAction → ResKey
  | .created k => k
  | .updated k => k

/-- The object as applied: the archived body, with the namespace stamped on
for namespaced resources (`obj.SetNamespace`). -/
def objOf (res : ArchivedResource) : List (String × Json) :=
  if res.ns ≠ "" then setNamespace res.object res.ns else res.object

/-- The key one archived resource is applied under. -/
def keyOf (res : ArchivedResource) : ResKey :=
  (res.gvr, res.ns, getName (objOf res))

/-- The apply step of `RestoreBackup` for one resource: attempt create; on
"already exists", fetch the live object, copy its resource version onto the
desired object, and update; any other create failure, or a get/update
failure, is fatal. -/
def applyOne (s : ClusterState) (res : ArchivedResource) :
    Except String (ClusterState × RestoreAction) :=
  match apiCreate s (keyOf res) (objOf res) with
  | .ok s' => .ok (s', .created (keyOf res))
  | .error err =>
    if err ≠ ApiError.alreadyExists then .error "failed to create resource"
    else
      match apiGet s (keyOf res) with
      | .error _ => .error "failed to fetch existing resource"
      | .ok existing =>
        match apiUpdate s (keyOf res)
            (setResourceVersion (objOf res) (getResourceVersion existing)) with
        | .error _ => .error "failed to update resource"
        | .ok s' => .ok (s', .updated (keyOf res))

/-- The apply loop: applies resources in order, counting successes; a
failure aborts with the state reached so far (earlier applies persist). -/
def applyAll (s : ClusterState) :
    List ArchivedResource → ClusterState × Except String (Nat × List RestoreAction)
  | [] => (s, .ok (0, []))
  | res :: rest =>
    match applyOne s res with
    | .error msg => (s, .error msg)
    | .ok (s', act) =>
      match applyAll s' rest with
      | (s'', .error msg) => (s'', .error msg)
      | (s'', .ok (n, tr)) => (s'', .ok (n + 1, act :: tr))

/-- Embedding of `RestoreBackup`: opening the archive (`none` models an
open/decompress failure), the read loop, then the apply loop — cluster
resources before namespaced ones.  Returns the final server state alongside
the applied count and trace. -/
def RestoreBackup (s : ClusterState) (archive : Option (List RawEntry)) :
    ClusterState × Except String (Nat × List RestoreAction) :=
  match archive with
  | none => (s, .error "failed to open archive")
  | some entries =>
    match parsePhase entries with
    | .error msg => (s, .error msg)
    | .ok (cs, nss) => applyAll s (cs ++ nss)

/-- Claim-side predicate: a processed entry whose path fails to parse. -/
def pathParseFails (e : RawEntry) : Bool :=
  e.isReg && strEndsWith e.name ".json" && isErr (parseArchiveEntry e.name)

/-- Claim-side predicate: a processed entry whose body decodes but yields no
resolvable object name. -/
def nameResolveFails (e : RawEntry) : Bool :=
  e.isReg && strEndsWith e.name ".json" &&
    (match parseArchiveEntry e.name, e.content with
     | .ok (_, ns, nm), some obj => isErr (ensureMetadata obj nm ns)
     | _, _ => false)

/-- A processed entry whose body fails to decode as a JSON object — the
failure source the spec's taxonomy omits. -/
def decodeFails (e : RawEntry) : Bool :=
  e.isReg && strEndsWith e.name ".json" &&
    !(isErr (parseArchiveEntry e.name)) && e.content.isNone

/-- The raw entry used to refute the spec's error enumeration: a valid
path with an undecodable body. -/
def badEntry : RawEntry := ⟨"cluster/v1/configmaps/x.json", true, none⟩

/-- The namespace object of the spec's concrete restore case. -/
def demoNsObj : List (String × Json) :=
  [("apiVersion", Json.str "v1"), ("kind", Json.str "Namespace"),
   ("metadata", Json.obj [("name", Json.str "restore-ns")])]

/-- The configmap object of the spec's concrete restore case. -/
def demoCmObj : List (String × Json) :=
  [("apiVersion", Json.str "v1"), ("kind", Json.str "ConfigMap"),
   ("metadata", Json.obj [("name", Json.str "sample-config")]),
   ("data", Json.obj [("key", Json.str "value")])]

/-- The spec's concrete archive: one namespace, one configmap inside it. -/
def demoArchive : List RawEntry :=
  [⟨"cluster/v1/namespaces/restore-ns.json", true, some demoNsObj⟩,
   ⟨"namespaces/restore-ns/v1/configmaps/sample-config.json", true, some demoCmObj⟩]

/-- The same archive with the namespace object listed last. -/
def demoArchiveRev : List RawEntry :=
  [⟨"namespaces/restore-ns/v1/configmaps/sample-config.json", true, some demoCmObj⟩,
   ⟨"cluster/v1/namespaces/restore-ns.json", true, some demoNsObj⟩]

/-- An empty cluster. -/
def demoS0 : ClusterState := ⟨[], 1⟩

/-- The cluster after restoring the demo archive once. -/
def demoS1 : ClusterState := (RestoreBackup demoS0 (some demoArchive)).1

/-- The trace of the first demo restore. -/
def demoTr1 : List RestoreAction :=
  [.created (nsGVR, "", "restore-ns"),
   .created (⟨"", "v1", "configmaps"⟩, "restore-ns", "sample-config")]

/-- The parsed partition of the reversed demo archive. -/
def demoParsedRev : List ArchivedResource × List ArchivedResource :=
  match parsePhase demoArchiveRev with
  | .ok p => p
  | .error _ => ([], [])

/-! ## Theorems -/

/-! ## Claim C1: storage-path sandboxing -/

/-- C1 (code bug).  The spec's own examples hold: a plain path passes through
unchanged, `host:///var/backups` resolves under the sandbox to
`/tmp/var/backups`, `host:///../etc` resolves identically to `host:///etc`,
and a request resolving to the sandbox root maps to the root.  But the
universal sandbox guarantee is false: `host:///tmp..` resolves to `/` itself
and `host:///tmp../etc` escapes to `/etc`, because the code re-roots with a
plain string-prefix test against `/tmp` that also matches the path component
`tmp..`, letting a `..` survive into the final join. -/
theorem resolveStoragePath_sandbox_escape :
    resolveStoragePath "/var/backups" = "/var/backups" ∧
    resolveStoragePath "host:///var/backups" = "/tmp/var/backups" ∧
    resolveStoragePath "host:///../etc" = resolveStoragePath "host:///etc" ∧
    resolveStoragePath "host://" = nodeTmp ∧
    resolveStoragePath "host:///tmp.." = "/" ∧
    underSandbox (resolveStoragePath "host:///tmp..") = false ∧
    resolveStoragePath "host:///tmp../etc" = "/etc" ∧
    underSandbox (resolveStoragePath "host:///tmp../etc") = false := by
  decide

/-! ## Claim C8: cleanup of a missing destination -/

/-- C8.  For every age threshold and count ceiling (set or unset) and every
clock value, `CleanupArchives` on a missing destination directory returns
success and touches nothing. -/
theorem CleanupArchives_missing_dir_ok (retentionDays : Option Int)
    (maxArchives : Option Nat) (now : Int) :
    CleanupArchives none retentionDays maxArchives now = .ok none := rfl

/-- Entries of a name-nodup directory are determined by their names. -/
theorem eq_of_name_eq {d : List DirEntry} (hnd : (d.map DirEntry.name).Nodup)
    {e f : DirEntry} (he : e ∈ d) (hf : f ∈ d) (h : e.name = f.name) : e = f :=
  List.inj_on_of_nodup_map hnd he hf h

/-- Name-nodupness passes to sublists. -/
theorem nodup_names_sublist {l d : List DirEntry} (hs : l.Sublist d)
    (hnd : (d.map DirEntry.name).Nodup) : (l.map DirEntry.name).Nodup :=
  (hs.map DirEntry.name).nodup hnd

/-- The archive files surviving the age phase are exactly the archive files
at or past the cutoff. -/
theorem agePhase_filter_archive (d : List DirEntry) (T now : Int) :
    (agePhase d (some T) now).filter isArchiveFile =
      (d.filter isArchiveFile).filter
        (fun e => decide (cutoffOf now T ≤ e.modTime)) := by
  show (d.filter (ageSurvives (cutoffOf now T))).filter isArchiveFile = _
  rw [List.filter_comm]
  refine List.filter_congr ?_
  intro e he
  have h : isArchiveFile e = true := List.of_mem_filter he
  unfold ageSurvives
  rw [h]
  simp only [Bool.true_and, Bool.not_eq_true']
  rw [← decide_not]
  exact decide_eq_decide.mpr not_lt

/-- Filtering a concatenation by "name not among the first block" removes
exactly the first block, provided names are nodup. -/
theorem filter_not_mem_names_append (l₁ l₂ : List DirEntry)
    (hnd : ((l₁ ++ l₂).map DirEntry.name).Nodup) :
    (l₁ ++ l₂).filter
        (fun e => decide (¬ e.name ∈ l₁.map DirEntry.name)) = l₂ := by
  rw [List.map_append, List.nodup_append] at hnd
  rw [List.filter_append]
  have h₁ : l₁.filter (fun e => decide (¬ e.name ∈ l₁.map DirEntry.name)) = [] := by
    rw [List.filter_eq_nil_iff]
    intro e he
    simp [List.mem_map_of_mem DirEntry.name he]
  have h₂ : l₂.filter (fun e => decide (¬ e.name ∈ l₁.map DirEntry.name)) = l₂ := by
    rw [List.filter_eq_self]
    intro e he
    have : ¬ e.name ∈ l₁.map DirEntry.name := fun hmem =>
      hnd.2.2 hmem (List.mem_map_of_mem DirEntry.name he)
    simp [this]
  rw [h₁, h₂, List.nil_append]

/-- Filtering a name-nodup list by "name not among the first `k`" is `drop k`. -/
theorem filter_not_mem_take_names (S : List DirEntry) (k : Nat)
    (hnd : (S.map DirEntry.name).Nodup) :
    S.filter (fun e => decide (¬ e.name ∈ (S.take k).map DirEntry.name)) =
      S.drop k := by
  have h := List.take_append_drop k S
  have hnd' : (((S.take k) ++ (S.drop k)).map DirEntry.name).Nodup := by
    rw [h]; exact hnd
  have := filter_not_mem_names_append (S.take k) (S.drop k) hnd'
  rw [h] at this
  exact this

/-- The archive files left by a full cleanup are, up to permutation, the
`C` name-largest among those at or past the cutoff, and a second cleanup
with the same policy is a no-op. -/
theorem cleanup_core (d : List DirEntry) (T : Int) (C : Nat) (now : Int)
    (hnd : (d.map DirEntry.name).Nodup) :
    (countPhase (agePhase d (some T) now) (some C)).filter isArchiveFile |>.Perm
      (let S := sortByName ((d.filter isArchiveFile).filter
          (fun e => decide (cutoffOf now T ≤ e.modTime)));
        S.drop (S.length - C)) := by
  set c := cutoffOf now T with hc
  set K := (d.filter isArchiveFile).filter (fun e => decide (c ≤ e.modTime)) with hK
  set S := sortByName K with hS
  set d1 := agePhase d (some T) now with hd1
  have hA : d1.filter isArchiveFile = K := agePhase_filter_archive d T now
  have hsub : K.Sublist d :=
    ((List.filter_sublist _).trans (List.filter_sublist _))
  have hKnd : (K.map DirEntry.name).Nodup := nodup_names_sublist hsub hnd
  have hSK : S.Perm K := List.perm_insertionSort nameLe K
  have hSnd : (S.map DirEntry.name).Nodup := by
    rw [(hSK.map DirEntry.name).nodup_iff]
    exact hKnd
  have hdoom : doomedNames d1 C =
      if C < S.length then (S.take (S.length - C)).map DirEntry.name else [] := by
    unfold doomedNames
    rw [hA]
  show (d1.filter (fun e => decide (¬ e.name ∈ doomedNames d1 C))).filter isArchiveFile
      |>.Perm (S.drop (S.length - C))
  rw [List.filter_comm, hA]
  by_cases hC : C < S.length
  · rw [hdoom, if_pos hC]
    have hperm := hSK.symm.filter
      (fun e => decide (¬ e.name ∈ (S.take (S.length - C)).map DirEntry.name))
    rw [filter_not_mem_take_names S (S.length - C) hSnd] at hperm
    exact hperm
  · rw [hdoom, if_neg hC]
    have h1 : K.filter (fun e => decide (¬ e.name ∈ ([] : List String))) = K := by
      rw [List.filter_eq_self]; intro a _; simp
    rw [h1]
    have h2 : S.length - C = 0 := Nat.sub_eq_zero_of_le (Nat.le_of_not_lt hC)
    rw [h2, List.drop_zero]
    exact hSK.symm

/-- A full cleanup is idempotent: running it again on its own output with the
same policy and clock deletes nothing. -/
theorem cleanup_idem (d : List DirEntry) (T : Int) (C : Nat) (now : Int)
    (hnd : (d.map DirEntry.name).Nodup) :
    countPhase (agePhase (countPhase (agePhase d (some T) now) (some C))
        (some T) now) (some C) =
      countPhase (agePhase d (some T) now) (some C) := by
  set c := cutoffOf now T with hc
  set d1 := agePhase d (some T) now with hd1
  set d' := countPhase d1 (some C) with hd'
  have hage : agePhase d' (some T) now = d' := by
    show d'.filter (ageSurvives c) = d'
    rw [List.filter_eq_self]
    intro e he
    have he1 : e ∈ d1 := by
      have : d' = d1.filter (fun e => decide (¬ e.name ∈ doomedNames d1 C)) := rfl
      rw [this] at he
      exact List.mem_of_mem_filter he
    exact List.of_mem_filter he1
  rw [hage]
  have hlen : (d'.filter isArchiveFile).length ≤ C := by
    have hperm := cleanup_core d T C now hnd
    simp only at hperm
    have := hperm.length_eq
    rw [this, List.length_drop]
    by_cases hC : C < (sortByName ((d.filter isArchiveFile).filter
        (fun e => decide (cutoffOf now T ≤ e.modTime)))).length
    · rw [Nat.sub_sub_self (Nat.le_of_lt hC)]
    · rw [Nat.sub_eq_zero_of_le (Nat.le_of_not_lt hC), Nat.sub_zero]
      exact Nat.le_of_not_lt hC
  have hdoom : doomedNames d' C = [] := by
    unfold doomedNames
    have hsl : (sortByName (d'.filter isArchiveFile)).length =
        (d'.filter isArchiveFile).length :=
      (List.perm_insertionSort nameLe _).length_eq
    rw [if_neg]
    rw [hsl]
    exact Nat.not_lt.mpr hlen
  show d'.filter (fun e => decide (¬ e.name ∈ doomedNames d' C)) = d'
  rw [hdoom, List.filter_eq_self]
  intro e _
  simp

/-- C2.  With age threshold `T` and count ceiling `C`, cleanup leaves (as
archive files) exactly the at-most-`C` name-largest among those whose
modification time is at or past `now - T` days, deleting the oldest excess;
a second run with the same policy is a no-op; and in the concrete 48h/2h/1h/0h
case with `T = 1`, `C = 2`, exactly the 1h and 0h archives remain. -/
theorem CleanupArchives_retention (d : List DirEntry) (T : Int) (C : Nat)
    (now : Int) (hnd : (d.map DirEntry.name).Nodup) :
    (∃ d', CleanupArchives (some d) (some T) (some C) now = .ok (some d') ∧
      (d'.filter isArchiveFile).Perm
        ((sortByName ((d.filter isArchiveFile).filter
            (fun e => decide (cutoffOf now T ≤ e.modTime)))).drop
          ((sortByName ((d.filter isArchiveFile).filter
            (fun e => decide (cutoffOf now T ≤ e.modTime)))).length - C)) ∧
      CleanupArchives (some d') (some T) (some C) now = .ok (some d')) ∧
    CleanupArchives (some demoDir) (some 1) (some 2) 0 =
      .ok (some [demoAge1, demoAge0]) := by
  constructor
  · refine ⟨countPhase (agePhase d (some T) now) (some C), rfl, ?_, ?_⟩
    · have h := cleanup_core d T C now hnd
      simpa using h
    · show Except.ok (some (countPhase (agePhase _ (some T) now) (some C))) = _
      rw [cleanup_idem d T C now hnd]
  · rfl

/-- C10.  For every retention policy, cleanup only ever deletes entries (the
result is a sublist of the directory), and every entry that is not an archive
file — directories and unrelated files — survives both phases. -/
theorem CleanupArchives_frame (d : List DirEntry) (rd : Option Int)
    (ma : Option Nat) (now : Int) (hnd : (d.map DirEntry.name).Nodup) :
    ∃ d', CleanupArchives (some d) rd ma now = .ok (some d') ∧
      d'.Sublist d ∧ ∀ e ∈ d, isArchiveFile e = false → e ∈ d' := by
  refine ⟨countPhase (agePhase d rd now) ma, rfl, ?_, ?_⟩
  · have h1 : (agePhase d rd now).Sublist d := by
      cases rd with
      | none => exact List.Sublist.refl d
      | some T => exact List.filter_sublist d
    have h2 : (countPhase (agePhase d rd now) ma).Sublist (agePhase d rd now) := by
      cases ma with
      | none => exact List.Sublist.refl _
      | some m => exact List.filter_sublist _
    exact h2.trans h1
  · intro e he hna
    have he1 : e ∈ agePhase d rd now := by
      cases rd with
      | none => exact he
      | some T =>
        refine List.mem_filter.mpr ⟨he, ?_⟩
        unfold ageSurvives
        rw [hna]
        rfl
    cases ma with
    | none => exact he1
    | some m =>
      refine List.mem_filter.mpr ⟨he1, ?_⟩
      have hnm : ¬ e.name ∈ doomedNames (agePhase d rd now) m := by
        intro hmem
        unfold doomedNames at hmem
        by_cases hcond : m < (sortByName ((agePhase d rd now).filter isArchiveFile)).length
        · rw [if_pos hcond] at hmem
          obtain ⟨f, hf, hfe⟩ := List.mem_map.mp hmem
          have hfs : f ∈ sortByName ((agePhase d rd now).filter isArchiveFile) :=
            List.mem_of_mem_take hf
          have hff : f ∈ (agePhase d rd now).filter isArchiveFile :=
            (List.perm_insertionSort nameLe _).subset hfs
          have hfarch : isArchiveFile f = true := List.of_mem_filter hff
          have hfd : f ∈ d := by
            have : f ∈ agePhase d rd now := List.mem_of_mem_filter hff
            cases rd with
            | none => exact this
            | some T => exact List.mem_of_mem_filter this
          have : f = e := eq_of_name_eq hnd hfd he hfe
          rw [this, hna] at hfarch
          exact Bool.false_ne_true hfarch
        · rw [if_neg hcond] at hmem
          exact (List.not_mem_nil _ hmem)
      simp [hnm]

theorem listIsPre_append (p q : List Char) : listIsPre p (p ++ q) = true := by
  induction p with
  | nil => rfl
  | cons a as ih => simp [listIsPre, ih]

theorem string_mk_data (s : String) : String.mk s.data = s := rfl

theorem hasSlash_false_iff (s : String) : hasSlash s = false ↔ '/' ∉ s.data := by
  unfold hasSlash
  simp only [List.any_eq_false, decide_eq_true_eq]
  constructor
  · intro h hm
    exact h '/' hm rfl
  · intro h x hx he
    rw [he] at hx
    exact h hx

theorem splitSlashAux_no_slash (cs : List Char) (h : '/' ∉ cs) (acc : List Char) :
    splitSlashAux cs acc = [String.mk (acc.reverse ++ cs)] := by
  induction cs generalizing acc with
  | nil => simp [splitSlashAux]
  | cons c rest ih =>
    have hc : ¬ (c = '/') := by
      intro he
      apply h
      rw [← he]
      exact List.mem_cons_self c rest
    have hr : '/' ∉ rest := fun hm => h (List.mem_cons_of_mem c hm)
    simp only [splitSlashAux]
    rw [if_neg hc, ih hr]
    simp

theorem splitSlashAux_append (cs rest : List Char) (h : '/' ∉ cs) (acc : List Char) :
    splitSlashAux (cs ++ '/' :: rest) acc =
      String.mk (acc.reverse ++ cs) :: splitSlashAux rest [] := by
  induction cs generalizing acc with
  | nil =>
    show splitSlashAux ('/' :: rest) acc = _
    simp only [splitSlashAux]
    simp
  | cons c cs' ih =>
    have hc : ¬ (c = '/') := by
      intro he
      apply h
      rw [← he]
      exact List.mem_cons_self c cs'
    have hr : '/' ∉ cs' := fun hm => h (List.mem_cons_of_mem c hm)
    have hstep : (c :: cs') ++ '/' :: rest = c :: (cs' ++ '/' :: rest) := rfl
    rw [hstep]
    simp only [splitSlashAux]
    rw [if_neg hc, ih hr]
    simp

theorem joinSlash_cons (s b : String) (rest : List String) :
    joinSlash (s :: b :: rest) = s ++ "/" ++ joinSlash (b :: rest) := rfl

theorem joinSlash_cons_data (s b : String) (rest : List String) :
    (joinSlash (s :: b :: rest)).data =
      s.data ++ '/' :: (joinSlash (b :: rest)).data := by
  rw [joinSlash_cons, String.data_append, String.data_append]
  simp

theorem splitSlash_joinSlash (ss : List String) (hne : ss ≠ [])
    (h : ∀ s ∈ ss, hasSlash s = false) : splitSlash (joinSlash ss) = ss := by
  induction ss with
  | nil => exact absurd rfl hne
  | cons s rest ih =>
    cases rest with
    | nil =>
      show splitSlashAux s.data [] = [s]
      rw [splitSlashAux_no_slash s.data
        ((hasSlash_false_iff s).mp (h s (List.mem_cons_self s [])))]
      simp
    | cons b rest' =>
      show splitSlashAux (joinSlash (s :: b :: rest')).data [] = s :: b :: rest'
      rw [joinSlash_cons_data, splitSlashAux_append s.data _
        ((hasSlash_false_iff s).mp (h s (List.mem_cons_self s _)))]
      have hrec := ih (List.cons_ne_nil b rest')
        (fun x hx => h x (List.mem_cons_of_mem s hx))
      show String.mk ([].reverse ++ s.data) :: splitSlash (joinSlash (b :: rest')) =
        s :: b :: rest'
      rw [hrec]
      rfl

theorem cleanStep_valid (rooted : Bool) (acc : List String) (s : String)
    (h : s ≠ "" ∧ s ≠ "." ∧ s ≠ "..") :
    cleanStep rooted acc s = acc ++ [s] := by
  unfold cleanStep
  rw [if_neg, if_neg]
  · exact h.2.2
  · rintro (h1 | h2)
    · exact h.1 h1
    · exact h.2.1 h2

theorem cleanComponents_valid_aux (rooted : Bool) (ss : List String)
    (h : ∀ s ∈ ss, s ≠ "" ∧ s ≠ "." ∧ s ≠ "..") (acc : List String) :
    List.foldl (cleanStep rooted) acc ss = acc ++ ss := by
  induction ss generalizing acc with
  | nil => simp
  | cons s rest ih =>
    rw [List.foldl_cons, cleanStep_valid rooted acc s (h s (List.mem_cons_self s rest))]
    rw [ih (fun x hx => h x (List.mem_cons_of_mem s hx))]
    simp

theorem strStartsWith_slash_eq_false (s : String) (rest : List String)
    (h0 : s ≠ "") (h1 : hasSlash s = false) :
    strStartsWith (joinSlash (s :: rest)) "/" = false := by
  obtain ⟨c, cs, hcs⟩ : ∃ c cs, s.data = c :: cs := by
    cases he : s.data with
    | nil =>
      exfalso
      apply h0
      cases s with
      | mk d =>
        have hd : d = [] := he
        rw [hd]
    | cons c cs => exact ⟨c, cs, rfl⟩
  have hc : ¬ ('/' = c) := by
    intro he
    apply (hasSlash_false_iff s).mp h1
    rw [hcs, he]
    exact List.mem_cons_self c cs
  obtain ⟨tl, hdata⟩ : ∃ tl, (joinSlash (s :: rest)).data = c :: tl := by
    cases rest with
    | nil => exact ⟨cs, hcs⟩
    | cons b rest' =>
      refine ⟨cs ++ '/' :: (joinSlash (b :: rest')).data, ?_⟩
      rw [joinSlash_cons_data, hcs]
      rfl
  show listIsPre "/".data (joinSlash (s :: rest)).data = false
  rw [hdata]
  show (decide ('/' = c) && listIsPre [] tl) = false
  rw [decide_eq_false hc]
  rfl

theorem pathClean_joinSlash_valid (ss : List String) (hne : ss ≠ [])
    (hv : ∀ s ∈ ss, validSeg s) : pathClean (joinSlash ss) = joinSlash ss := by
  obtain ⟨s, rest, rfl⟩ : ∃ s rest, ss = s :: rest := by
    cases ss with
    | nil => exact absurd rfl hne
    | cons s rest => exact ⟨s, rest, rfl⟩
  have hs := hv s (List.mem_cons_self s rest)
  have hroot := strStartsWith_slash_eq_false s rest hs.1 hs.2.2.2
  have hsplit : splitSlash (joinSlash (s :: rest)) = s :: rest :=
    splitSlash_joinSlash _ (List.cons_ne_nil s rest)
      (fun x hx => (hv x hx).2.2.2)
  have hjne : joinSlash (s :: rest) ≠ "" := by
    intro he
    rw [he] at hsplit
    have hnil : ([""] : List String) = s :: rest := hsplit
    injection hnil with hh _
    exact hs.1 hh.symm
  unfold pathClean
  rw [if_neg hjne, hroot]
  simp only [Bool.false_eq_true, if_false]
  rw [hsplit]
  unfold cleanComponents
  rw [cleanComponents_valid_aux false (s :: rest)
    (fun x hx => ⟨(hv x hx).1, (hv x hx).2.1, (hv x hx).2.2.1⟩) []]
  simp only [List.nil_append]
  rw [if_neg (List.cons_ne_nil s rest)]
  rfl

theorem strDropSuf_json (name : String) :
    strDropSuf (name ++ ".json") ".json" = name := by
  have hend : strEndsWith (name ++ ".json") ".json" = true := by
    show listIsPre ".json".data.reverse (name ++ ".json").data.reverse = true
    rw [String.data_append, List.reverse_append]
    exact listIsPre_append _ _
  unfold strDropSuf
  rw [hend]
  simp only [if_true]
  rw [String.data_append]
  have hlen : (name.data ++ ".json".data).length - ".json".data.length
      = name.data.length := by
    rw [List.length_append]
    omega
  rw [hlen, List.take_left]

theorem parseParts_namespaced3 (ns g v r nm : String) (h : nm ≠ "") :
    parseParts ["namespaces", ns, g, v, r, nm ++ ".json"] =
      .ok (⟨g, v, r⟩, ns, nm) := by
  simp [parseParts, strDropSuf_json, h]

theorem parseParts_namespaced2 (ns v r nm : String) (h : nm ≠ "") :
    parseParts ["namespaces", ns, v, r, nm ++ ".json"] =
      .ok (⟨"", v, r⟩, ns, nm) := by
  simp [parseParts, strDropSuf_json, h]

theorem parseParts_cluster3 (g v r nm : String) (h : nm ≠ "") :
    parseParts ["cluster", g, v, r, nm ++ ".json"] =
      .ok (⟨g, v, r⟩, "", nm) := by
  simp [parseParts, strDropSuf_json, h]

theorem parseParts_cluster2 (v r nm : String) (h : nm ≠ "") :
    parseParts ["cluster", v, r, nm ++ ".json"] =
      .ok (⟨"", v, r⟩, "", nm) := by
  simp [parseParts, strDropSuf_json, h]

theorem data_ne_nil_of_ne_empty (s : String) (h : s ≠ "") : s.data ≠ [] := by
  intro hd
  apply h
  cases s with
  | mk d =>
    have : d = [] := hd
    rw [this]

theorem validSeg_json (nm : String) (_h0 : nm ≠ "") (h1 : hasSlash nm = false) :
    validSeg (nm ++ ".json") := by
  have hdata : (nm ++ ".json").data = nm.data ++ ".json".data := String.data_append nm _
  have hlen : (nm ++ ".json").data.length = nm.data.length + 5 := by
    rw [hdata, List.length_append]
    rfl
  refine ⟨?_, ?_, ?_, ?_⟩
  · intro he
    have hl := congrArg (fun t => t.data.length) he
    simp only at hl
    rw [hlen] at hl
    simp only [List.length_cons, List.length_nil] at hl
    omega
  · intro he
    have hl := congrArg (fun t => t.data.length) he
    simp only at hl
    rw [hlen] at hl
    simp only [List.length_cons, List.length_nil] at hl
    omega
  · intro he
    have hl := congrArg (fun t => t.data.length) he
    simp only at hl
    rw [hlen] at hl
    simp only [List.length_cons, List.length_nil] at hl
    omega
  · rw [hasSlash_false_iff] at h1 ⊢
    rw [hdata]
    intro hm
    rcases List.mem_append.mp hm with hm1 | hm2
    · exact h1 hm1
    · simp at hm2

theorem filter_ne_empty_of_all (ss : List String) (h : ∀ s ∈ ss, s ≠ "") :
    ss.filter (fun e => e ≠ "") = ss :=
  List.filter_eq_self.mpr (fun a ha => by simp [h a ha])

/-- C3.  For every coordinate with group present or absent, every namespace
(empty string = cluster scope) and every object name — all made of sane path
segments — parsing the built archive entry path returns exactly the same
coordinate, namespace and name. -/
theorem parseArchiveEntry_roundtrip (gvr : GVR) (ns nm : String)
    (hg : gvr.group = "" ∨ validSeg gvr.group)
    (hv : validSeg gvr.version) (hr : validSeg gvr.resource)
    (hns : ns = "" ∨ validSeg ns)
    (hn0 : nm ≠ "") (hn1 : hasSlash nm = false) :
    parseArchiveEntry (archiveEntryPath gvr ns nm) = .ok (gvr, ns, nm) := by
  obtain ⟨g, v, r⟩ := gvr
  simp only at hg hv hr
  have hjson := validSeg_json nm hn0 hn1
  have hclean : ∀ (comps : List String), comps ≠ [] → (∀ s ∈ comps, validSeg s) →
      parseArchiveEntry (filepathJoin comps) =
        parseParts comps := by
    intro comps hne hvall
    have hfilter : comps.filter (fun e => e ≠ "") = comps :=
      filter_ne_empty_of_all comps (fun s hs => (hvall s hs).1)
    unfold filepathJoin
    simp only [hfilter]
    rw [if_neg hne]
    unfold parseArchiveEntry
    rw [pathClean_joinSlash_valid comps hne hvall,
      pathClean_joinSlash_valid comps hne hvall,
      splitSlash_joinSlash comps hne (fun s hs => (hvall s hs).2.2.2)]
  rcases hns with hns0 | hnsv
  · subst hns0
    rcases hg with hg0 | hgv
    · subst hg0
      have : archiveEntryPath ⟨"", v, r⟩ "" nm =
          filepathJoin ["cluster", v, r, nm ++ ".json"] := by
        unfold archiveEntryPath filepathJoin
        simp [hv.1, hr.1, hjson.1]
      rw [this, hclean _ (by simp) ?_, parseParts_cluster2 v r nm hn0]
      intro s hs
      fin_cases hs
      · exact ⟨by decide, by decide, by decide, by decide⟩
      · exact hv
      · exact hr
      · exact hjson
    · have : archiveEntryPath ⟨g, v, r⟩ "" nm =
          filepathJoin ["cluster", g, v, r, nm ++ ".json"] := by
        unfold archiveEntryPath filepathJoin
        simp [hgv.1, hv.1, hr.1, hjson.1]
      rw [this, hclean _ (by simp) ?_, parseParts_cluster3 g v r nm hn0]
      intro s hs
      fin_cases hs
      · exact ⟨by decide, by decide, by decide, by decide⟩
      · exact hgv
      · exact hv
      · exact hr
      · exact hjson
  · rcases hg with hg0 | hgv
    · subst hg0
      have : archiveEntryPath ⟨"", v, r⟩ ns nm =
          filepathJoin ["namespaces", ns, v, r, nm ++ ".json"] := by
        unfold archiveEntryPath filepathJoin
        simp [hnsv.1, hv.1, hr.1, hjson.1]
      rw [this, hclean _ (by simp) ?_, parseParts_namespaced2 ns v r nm hn0]
      intro s hs
      fin_cases hs
      · exact ⟨by decide, by decide, by decide, by decide⟩
      · exact hnsv
      · exact hv
      · exact hr
      · exact hjson
    · have : archiveEntryPath ⟨g, v, r⟩ ns nm =
          filepathJoin ["namespaces", ns, g, v, r, nm ++ ".json"] := by
        unfold archiveEntryPath filepathJoin
        simp [hnsv.1, hgv.1, hv.1, hr.1, hjson.1]
      rw [this, hclean _ (by simp) ?_, parseParts_namespaced3 ns g v r nm hn0]
      intro s hs
      fin_cases hs
      · exact ⟨by decide, by decide, by decide, by decide⟩
      · exact hnsv
      · exact hgv
      · exact hv
      · exact hr
      · exact hjson

theorem bool_not_eq_false (b : Bool) : (!b) = false ↔ b = true := by
  cases b <;> simp

theorem contains_iff_mem (l : List String) (x : String) :
    contains l x = true ↔ x ∈ l := by
  unfold contains
  simp only [List.any_eq_true, decide_eq_true_eq]
  constructor
  · rintro ⟨s, hs, rfl⟩
    exact hs
  · intro hx
    exact ⟨x, hx, rfl⟩

theorem strToLower_ne_empty (s : String) (h : s ≠ "") : strToLower s ≠ "" := by
  intro he
  apply data_ne_nil_of_ne_empty s h
  have : (strToLower s).data = [] := by rw [he]
  have hm : s.data.map Char.toLower = [] := this
  exact List.map_eq_nil_iff.mp hm

theorem makeStringSet_eq_nil_iff (values : List String) (f : String → String) :
    makeStringSet values f = [] ↔ ∀ v ∈ values, f v = "" := by
  unfold makeStringSet
  rw [List.filter_eq_nil_iff]
  constructor
  · intro h v hv
    by_contra hne
    exact h (f v) (List.mem_map_of_mem f hv) (by simp [hne])
  · intro h a ha
    obtain ⟨v, hv, rfl⟩ := List.mem_map.mp ha
    simp [h v hv]

theorem mem_makeStringSet_iff (values : List String) (f : String → String)
    (k : String) (hk : k ≠ "") :
    k ∈ makeStringSet values f ↔ ∃ v ∈ values, f v = k := by
  unfold makeStringSet
  rw [List.mem_filter]
  constructor
  · intro ⟨h1, _⟩
    exact List.mem_map.mp h1
  · intro h
    exact ⟨List.mem_map.mpr h, by simp [hk]⟩

/-- C9.  A discovered coordinate is captured exactly when its resource name
has no slash, its verbs include `list`, and either every configured filter
entry normalizes (trim + case-fold) to empty — which behaves as "no
filter" — or some entry normalizes to the coordinate's case-folded kind. -/
theorem resourceEligible_iff (opts : BackupOptions) (res : APIResource)
    (hk : res.kind ≠ "") :
    resourceEligible opts res = true ↔
      hasSlash res.name = false ∧ "list" ∈ res.verbs ∧
        ((∀ f ∈ opts.resourceTypes, strToLower (trimSpace f) = "") ∨
          ∃ f ∈ opts.resourceTypes,
            strToLower (trimSpace f) = strToLower res.kind) := by
  unfold resourceEligible
  simp only [Bool.and_eq_true, Bool.not_eq_true', Bool.and_eq_false_iff,
    decide_eq_false_iff_not, not_lt, Nat.le_zero, List.length_eq_zero,
    bool_not_eq_false, contains_iff_mem]
  constructor
  · rintro ⟨⟨hslash, hlist⟩, hfilter⟩
    refine ⟨hslash, hlist, ?_⟩
    rcases hfilter with hnil | hmem
    · exact Or.inl ((makeStringSet_eq_nil_iff _ _).mp hnil)
    · exact Or.inr ((mem_makeStringSet_iff _ _ _
        (strToLower_ne_empty _ hk)).mp hmem)
  · rintro ⟨hslash, hlist, hfilter⟩
    refine ⟨⟨hslash, hlist⟩, ?_⟩
    rcases hfilter with hall | hex
    · exact Or.inl ((makeStringSet_eq_nil_iff _ _).mpr hall)
    · exact Or.inr ((mem_makeStringSet_iff _ _ _
        (strToLower_ne_empty _ hk)).mpr hex)

/-- C7.  A non-empty include list is returned verbatim whatever the server
would say (so listing failures cannot surface); with no include filter the
result is exactly the server set minus the excludes, and the only error case
is a failed listing call.  The spec's concrete example is included. -/
theorem getNamespacesToBackup_spec (opts : BackupOptions)
    (hE : ∀ e ∈ opts.excludeNamespaces, trimSpace e = e ∧ e ≠ "") :
    (opts.includeNamespaces ≠ [] →
      ∀ sv, getNamespacesToBackup opts sv = .ok opts.includeNamespaces) ∧
    (opts.includeNamespaces = [] →
      (∀ S, getNamespacesToBackup opts (.ok S) =
        .ok (S.filter (fun ns => decide (¬ ns ∈ opts.excludeNamespaces)))) ∧
      getNamespacesToBackup opts (.error ()) = .error ()) ∧
    getNamespacesToBackup ⟨[], ["kube-system"], true, []⟩
        (.ok ["default", "kube-system", "custom"]) =
      .ok ["default", "custom"] := by
  refine ⟨?_, ?_, by rfl⟩
  · intro hne sv
    unfold getNamespacesToBackup
    rw [if_pos hne]
  · intro hempty
    have hset : makeStringSet opts.excludeNamespaces (fun s => trimSpace s) =
        opts.excludeNamespaces := by
      unfold makeStringSet
      have hmap : ∀ (L : List String), (∀ e ∈ L, trimSpace e = e) →
          L.map (fun s => trimSpace s) = L := by
        intro L hL
        induction L with
        | nil => rfl
        | cons a as ih =>
          rw [List.map_cons, hL a (List.mem_cons_self a as),
            ih (fun e he => hL e (List.mem_cons_of_mem a he))]
      rw [hmap opts.excludeNamespaces (fun e he => (hE e he).1)]
      exact List.filter_eq_self.mpr (fun e he => by simp [(hE e he).2])
    constructor
    · intro S
      unfold getNamespacesToBackup
      rw [if_neg (by simp [hempty])]
      simp only [hset]
      refine congrArg Except.ok (List.filter_congr ?_)
      intro ns _
      by_cases hmem : ns ∈ opts.excludeNamespaces
      · have hc : contains opts.excludeNamespaces ns = true :=
          (contains_iff_mem _ _).mpr hmem
        have hlen : opts.excludeNamespaces.length > 0 :=
          List.length_pos.mpr (List.ne_nil_of_mem hmem)
        simp [hc, hlen, hmem]
      · have hc : contains opts.excludeNamespaces ns = false := by
          rw [← Bool.not_eq_true, contains_iff_mem]
          exact hmem
        simp [hc, hmem]
    · unfold getNamespacesToBackup
      rw [if_neg (by simp [hempty])]

theorem isSome_map {α β : Type} (o : Option α) (f : α → β) :
    (o.map f).isSome = o.isSome := by
  cases o <;> rfl

theorem jsonLookup_setKey_self (m : List (String × Json)) (k : String) (v : Json) :
    jsonLookup (setKey m k v) k = some v := by
  unfold setKey
  by_cases hs : (m.find? (fun p => p.1 = k)).isSome = true
  · rw [if_pos hs]
    unfold jsonLookup
    induction m with
    | nil => simp at hs
    | cons p rest ih =>
      by_cases hpk : p.1 = k
      · simp only [List.map_cons, if_pos hpk, List.find?_cons]
        simp
      · simp only [List.map_cons, if_neg hpk, List.find?_cons]
        have hd : (decide (p.1 = k)) = false := by simp [hpk]
        rw [hd]
        simp only [List.find?_cons, hd] at hs
        exact ih hs
  · rw [if_neg hs]
    unfold jsonLookup
    induction m with
    | nil => simp
    | cons p rest ih =>
      have hpk : (decide (p.1 = k)) = false := by
        cases h : decide (p.1 = k)
        · rfl
        · exfalso
          apply hs
          simp only [List.find?_cons, h]
          rfl
      have hs' : ¬(rest.find? (fun p => decide (p.1 = k))).isSome = true := by
        intro hcontra
        apply hs
        simp only [List.find?_cons, hpk]
        exact hcontra
      simp only [List.cons_append, List.find?_cons, hpk]
      exact ih hs'

theorem metaOf_setMeta (obj m' : List (String × Json)) :
    metaOf (setKey obj "metadata" (Json.obj m')) = m' := by
  unfold metaOf
  rw [jsonLookup_setKey_self]

theorem getRV_setRV (obj : List (String × Json)) (rv : String) :
    getResourceVersion (setResourceVersion obj rv) = rv := by
  unfold getResourceVersion setResourceVersion setMetaField
  rw [metaOf_setMeta, jsonLookup_setKey_self]

theorem find?_map_replace_isSome {B : Type} (l : List (ResKey × B))
    (key k : ResKey) (v : B) :
    ((l.map (fun p => if p.1 = key then (key, v) else p)).find?
        (fun p => p.1 = k)).isSome =
      ((l.find? (fun p => p.1 = k)).isSome) := by
  induction l with
  | nil => rfl
  | cons p rest ih =>
    by_cases hpk : p.1 = key
    · simp only [List.map_cons, if_pos hpk, List.find?_cons]
      have : (decide ((key, v).1 = k)) = (decide (p.1 = k)) := by
        rw [hpk]
      rw [this]
      cases h : decide (p.1 = k)
      · exact ih
      · rfl
    · simp only [List.map_cons, if_neg hpk, List.find?_cons]
      cases h : decide (p.1 = k)
      · exact ih
      · rfl

theorem find?_append_single_isSome {B : Type} (l : List (ResKey × B))
    (key k : ResKey) (v : B) :
    ((l ++ [(key, v)]).find? (fun p => p.1 = k)).isSome =
      ((l.find? (fun p => p.1 = k)).isSome || decide (key = k)) := by
  induction l with
  | nil =>
    simp only [List.nil_append, List.find?_cons]
    cases h : decide ((key, v).1 = k) <;> rfl
  | cons p rest ih =>
    simp only [List.cons_append, List.find?_cons]
    cases h : decide (p.1 = k)
    · exact ih
    · rfl

theorem lookupStore_update_isSome (store : List (ResKey × List (String × Json)))
    (n : Nat) (key k : ResKey) (v : List (String × Json)) :
    (lookupStore ⟨store.map (fun p => if p.1 = key then (key, v) else p), n⟩ k).isSome =
      (lookupStore ⟨store, n⟩ k).isSome := by
  unfold lookupStore
  rw [isSome_map, isSome_map]
  exact find?_map_replace_isSome store key k v

theorem lookupStore_append_isSome (store : List (ResKey × List (String × Json)))
    (n : Nat) (key k : ResKey) (v : List (String × Json)) :
    (lookupStore ⟨store ++ [(key, v)], n⟩ k).isSome =
      ((lookupStore ⟨store, n⟩ k).isSome || decide (key = k)) := by
  unfold lookupStore
  rw [isSome_map, isSome_map]
  exact find?_append_single_isSome store key k v

theorem lookupStore_proj (s : ClusterState) (k : ResKey) :
    lookupStore ⟨s.store, s.nextRv⟩ k = lookupStore s k := rfl

theorem applyOne_present (s : ClusterState) (res : ArchivedResource)
    (h : (lookupStore s (keyOf res)).isSome = true) :
    ∃ s', applyOne s res = .ok (s', .updated (keyOf res)) ∧
      ∀ k, (lookupStore s' k).isSome = (lookupStore s k).isSome := by
  obtain ⟨existing, hex⟩ : ∃ b, lookupStore s (keyOf res) = some b := by
    cases hl : lookupStore s (keyOf res) with
    | none => rw [hl] at h; exact absurd h (by simp)
    | some b => exact ⟨b, rfl⟩
  refine ⟨⟨s.store.map (fun p =>
      if p.1 = keyOf res then
        (keyOf res, setResourceVersion
          (setResourceVersion (objOf res) (getResourceVersion existing))
          (toString s.nextRv))
      else p), s.nextRv + 1⟩, ?_, ?_⟩
  · have hcreate : apiCreate s (keyOf res) (objOf res) = .error .alreadyExists := by
      unfold apiCreate
      rw [if_pos h]
    have hget : apiGet s (keyOf res) = .ok existing := by
      unfold apiGet
      rw [hex]
    have hupd : apiUpdate s (keyOf res)
        (setResourceVersion (objOf res) (getResourceVersion existing)) =
        .ok ⟨s.store.map (fun p =>
          if p.1 = keyOf res then
            (keyOf res, setResourceVersion
              (setResourceVersion (objOf res) (getResourceVersion existing))
              (toString s.nextRv))
          else p), s.nextRv + 1⟩ := by
      unfold apiUpdate
      simp only [hex]
      rw [if_neg (by rw [getRV_setRV]; exact fun hne => hne rfl)]
    unfold applyOne
    rw [hcreate]
    simp [hget, hupd]
  · intro k
    exact lookupStore_update_isSome s.store (s.nextRv + 1) (keyOf res) k _

theorem applyOne_absent (s : ClusterState) (res : ArchivedResource)
    (habs : (lookupStore s (keyOf res)).isSome = false)
    (hns : res.ns = "" ∨ namespaceExists s res.ns = true) :
    applyOne s res = .ok
      (⟨s.store ++ [(keyOf res, setResourceVersion (objOf res) (toString s.nextRv))],
        s.nextRv + 1⟩, .created (keyOf res)) := by
  have hk2 : (keyOf res).2.1 = res.ns := rfl
  have hcond : ((keyOf res).2.1 ≠ "" && !(namespaceExists s (keyOf res).2.1)) = false := by
    rw [hk2]
    rcases hns with h0 | h1
    · simp [h0]
    · simp [h1]
  have hcreate : apiCreate s (keyOf res) (objOf res) =
      .ok ⟨s.store ++ [(keyOf res, setResourceVersion (objOf res) (toString s.nextRv))],
        s.nextRv + 1⟩ := by
    unfold apiCreate
    rw [if_neg (by rw [habs]; exact fun hc => Bool.false_ne_true hc)]
    rw [if_neg (by rw [hcond]; exact fun hc => Bool.false_ne_true hc)]
  unfold applyOne
  rw [hcreate]

theorem applyOne_ns_missing (s : ClusterState) (res : ArchivedResource)
    (habs : (lookupStore s (keyOf res)).isSome = false)
    (hns1 : res.ns ≠ "") (hns2 : namespaceExists s res.ns = false) :
    applyOne s res = .error "failed to create resource" := by
  have hk2 : (keyOf res).2.1 = res.ns := rfl
  have hcond : ((keyOf res).2.1 ≠ "" && !(namespaceExists s (keyOf res).2.1)) = true := by
    rw [hk2]
    simp [hns1, hns2]
  have hcreate : apiCreate s (keyOf res) (objOf res) = .error .namespaceMissing := by
    unfold apiCreate
    rw [if_neg (by rw [habs]; exact fun hc => Bool.false_ne_true hc)]
    rw [if_pos hcond]
  unfold applyOne
  rw [hcreate]
  simp

theorem applyOne_ok_inv (s : ClusterState) (res : ArchivedResource)
    (s' : ClusterState) (act : RestoreAction)
    (h : applyOne s res = .ok (s', act)) :
    actionKey act = keyOf res ∧
    (∀ k, (lookupStore s k).isSome = true → (lookupStore s' k).isSome = true) ∧
    (lookupStore s' (keyOf res)).isSome = true := by
  by_cases hp : (lookupStore s (keyOf res)).isSome = true
  · obtain ⟨s'', heq, hpres⟩ := applyOne_present s res hp
    rw [heq] at h
    injection h with hpair
    injection hpair with hs hact
    subst hs
    subst hact
    refine ⟨rfl, ?_, ?_⟩
    · intro k hk
      rw [hpres k]
      exact hk
    · rw [hpres (keyOf res)]
      exact hp
  · have habs : (lookupStore s (keyOf res)).isSome = false := by
      cases hl : (lookupStore s (keyOf res)).isSome
      · rfl
      · exact absurd hl hp
    by_cases hns : res.ns = "" ∨ namespaceExists s res.ns = true
    · have heq := applyOne_absent s res habs hns
      rw [heq] at h
      injection h with hpair
      injection hpair with hs hact
      subst hs
      subst hact
      refine ⟨rfl, ?_, ?_⟩
      · intro k hk
        rw [lookupStore_append_isSome s.store (s.nextRv + 1) (keyOf res) k _]
        rw [show (lookupStore ⟨s.store, s.nextRv + 1⟩ k) = lookupStore s k from rfl]
        rw [hk]
        rfl
      · rw [lookupStore_append_isSome s.store (s.nextRv + 1) (keyOf res) (keyOf res) _]
        simp
    · push_neg at hns
      have hns2 : namespaceExists s res.ns = false := by
        cases hl : namespaceExists s res.ns
        · rfl
        · exact absurd hl hns.2
      have heq := applyOne_ns_missing s res habs hns.1 hns2
      rw [heq] at h
      exact absurd h (by simp)

theorem applyAll_ok_inv : ∀ (entries : List ArchivedResource)
    (s s' : ClusterState) (n : Nat) (tr : List RestoreAction),
    applyAll s entries = (s', .ok (n, tr)) →
    n = entries.length ∧
    tr.map actionKey = entries.map keyOf ∧
    (∀ k, (lookupStore s k).isSome = true → (lookupStore s' k).isSome = true) ∧
    (∀ res ∈ entries, (lookupStore s' (keyOf res)).isSome = true) := by
  intro entries
  induction entries with
  | nil =>
    intro s s' n tr h
    simp only [applyAll, Prod.mk.injEq, Except.ok.injEq] at h
    obtain ⟨hs, hn, htr⟩ := h
    subst hs
    subst hn
    subst htr
    exact ⟨rfl, rfl, fun k hk => hk, fun res hres => absurd hres (List.not_mem_nil res)⟩
  | cons res rest ih =>
    intro s s' n tr h
    simp only [applyAll] at h
    cases ha : applyOne s res with
    | error msg => rw [ha] at h; simp at h
    | ok pr =>
      obtain ⟨s₁, act⟩ := pr
      rw [ha] at h
      simp only at h
      cases hb : applyAll s₁ rest with
      | mk s₂ r =>
        cases r with
        | error msg => rw [hb] at h; simp at h
        | ok pr2 =>
          obtain ⟨n₂, tr₂⟩ := pr2
          rw [hb] at h
          simp only [Prod.mk.injEq, Except.ok.injEq] at h
          obtain ⟨hs2, hn2, htr2⟩ := h
          subst hs2
          subst hn2
          subst htr2
          obtain ⟨hact, hmono1, hkey1⟩ := applyOne_ok_inv s res s₁ act ha
          obtain ⟨hlen, htrace, hmono2, hkeys2⟩ := ih s₁ _ n₂ tr₂ hb
          refine ⟨by rw [hlen]; rfl, ?_, ?_, ?_⟩
          · simp only [List.map_cons, hact, htrace]
          · intro k hk
            exact hmono2 k (hmono1 k hk)
          · intro r hr
            rcases List.mem_cons.mp hr with hre | hrr
            · subst hre
              exact hmono2 (keyOf r) hkey1
            · exact hkeys2 r hrr

theorem applyAll_all_present : ∀ (entries : List ArchivedResource)
    (s : ClusterState),
    (∀ res ∈ entries, (lookupStore s (keyOf res)).isSome = true) →
    ∃ s' tr, applyAll s entries = (s', .ok (entries.length, tr)) ∧
      (∀ a ∈ tr, ∃ k, a = .updated k) ∧
      (∀ k, (lookupStore s' k).isSome = (lookupStore s k).isSome) := by
  intro entries
  induction entries with
  | nil =>
    intro s _
    exact ⟨s, [], rfl, fun a ha => absurd ha (List.not_mem_nil a), fun k => rfl⟩
  | cons res rest ih =>
    intro s h
    obtain ⟨s₁, heq, hpres⟩ := applyOne_present s res (h res (List.mem_cons_self res rest))
    obtain ⟨s₂, tr₂, hb, hupd, hpres₂⟩ := ih s₁ (fun r hr => by
      rw [hpres (keyOf r)]
      exact h r (List.mem_cons_of_mem res hr))
    refine ⟨s₂, .updated (keyOf res) :: tr₂, ?_, ?_, ?_⟩
    · simp only [applyAll, heq, hb, List.length_cons]
    · intro a ha
      rcases List.mem_cons.mp ha with hae | har
      · exact ⟨keyOf res, hae⟩
      · exact hupd a har
    · intro k
      rw [hpres₂ k, hpres k]

theorem applyAll_cover : ∀ (entries : List ArchivedResource) (s : ClusterState),
    (∀ res ∈ entries, res.ns ≠ "" →
      (namespaceExists s res.ns = true ∨ (lookupStore s (keyOf res)).isSome = true)) →
    ∃ s' tr, applyAll s entries = (s', .ok (entries.length, tr)) ∧
      tr.map actionKey = entries.map keyOf ∧
      (∀ k, (lookupStore s k).isSome = true → (lookupStore s' k).isSome = true) ∧
      (∀ res ∈ entries, (lookupStore s' (keyOf res)).isSome = true) := by
  intro entries
  induction entries with
  | nil =>
    intro s _
    exact ⟨s, [], rfl, rfl, fun k hk => hk,
      fun res hres => absurd hres (List.not_mem_nil res)⟩
  | cons res rest ih =>
    intro s h
    have hstep : ∃ s₁ act, applyOne s res = .ok (s₁, act) ∧ actionKey act = keyOf res ∧
        (∀ k, (lookupStore s k).isSome = true → (lookupStore s₁ k).isSome = true) ∧
        (lookupStore s₁ (keyOf res)).isSome = true := by
      by_cases hp : (lookupStore s (keyOf res)).isSome = true
      · obtain ⟨s₁, heq, hpres⟩ := applyOne_present s res hp
        refine ⟨s₁, _, heq, rfl, ?_, ?_⟩
        · intro k hk
          rw [hpres k]
          exact hk
        · rw [hpres (keyOf res)]
          exact hp
      · have habs : (lookupStore s (keyOf res)).isSome = false := by
          cases hl : (lookupStore s (keyOf res)).isSome
          · rfl
          · exact absurd hl hp
        have hns : res.ns = "" ∨ namespaceExists s res.ns = true := by
          by_cases h0 : res.ns = ""
          · exact Or.inl h0
          · rcases h res (List.mem_cons_self res rest) h0 with h1 | h2
            · exact Or.inr h1
            · exact absurd h2 hp
        refine ⟨_, _, applyOne_absent s res habs hns, rfl, ?_, ?_⟩
        · intro k hk
          rw [lookupStore_append_isSome s.store (s.nextRv + 1) (keyOf res) k _]
          rw [show (lookupStore ⟨s.store, s.nextRv + 1⟩ k) = lookupStore s k from rfl]
          rw [hk]
          rfl
        · rw [lookupStore_append_isSome s.store (s.nextRv + 1) (keyOf res) (keyOf res) _]
          simp
    obtain ⟨s₁, act, heq, hact, hmono1, hkey1⟩ := hstep
    have hmononsExists : ∀ ns, namespaceExists s ns = true → namespaceExists s₁ ns = true := by
      intro ns hns
      exact hmono1 (nsGVR, "", ns) hns
    obtain ⟨s₂, tr₂, hb, htrace, hmono2, hkeys2⟩ := ih s₁ (fun r hr hrns => by
      rcases h r (List.mem_cons_of_mem res hr) hrns with h1 | h2
      · exact Or.inl (hmononsExists r.ns h1)
      · exact Or.inr (hmono1 (keyOf r) h2))
    refine ⟨s₂, act :: tr₂, ?_, ?_, ?_, ?_⟩
    · simp only [applyAll, heq, hb, List.length_cons]
    · simp only [List.map_cons, hact, htrace]
    · intro k hk
      exact hmono2 k (hmono1 k hk)
    · intro r hr
      rcases List.mem_cons.mp hr with hre | hrr
      · subst hre
        exact hmono2 (keyOf r) hkey1
      · exact hkeys2 r hrr

theorem processEntry_err_iff (e : RawEntry) :
    isErr (processEntry e) = true ↔
      (pathParseFails e = true ∨ decodeFails e = true ∨ nameResolveFails e = true) := by
  unfold processEntry pathParseFails decodeFails nameResolveFails
  cases hr : e.isReg with
  | false => simp [hr, isErr]
  | true =>
    cases hsuf : strEndsWith e.name ".json" with
    | false => simp [hsuf, isErr]
    | true =>
      simp only [Bool.not_true, Bool.false_eq_true, if_false, Bool.true_and]
      cases hp : parseArchiveEntry e.name with
      | error msg => simp [isErr]
      | ok val =>
        obtain ⟨gvr, ns, nm⟩ := val
        cases hc : e.content with
        | none => simp [isErr]
        | some obj =>
          cases hm : ensureMetadata obj nm ns with
          | error msg => simp [hm, isErr]
          | ok obj' => simp [hm, isErr]

theorem parsePhase_err_iff : ∀ (l : List RawEntry),
    isErr (parsePhase l) = true ↔ ∃ e ∈ l, isErr (processEntry e) = true := by
  intro l
  induction l with
  | nil => simp [parsePhase, isErr]
  | cons e rest ih =>
    simp only [parsePhase]
    cases hp : processEntry e with
    | error msg =>
      simp only [isErr, true_iff]
      exact ⟨e, List.mem_cons_self e rest, by rw [hp]⟩
    | ok val =>
      have hne0 : isErr (processEntry e) = false := by rw [hp]; rfl
      cases val with
      | none =>
        simp only []
        rw [ih]
        constructor
        · rintro ⟨x, hx, hfx⟩
          exact ⟨x, List.mem_cons_of_mem e hx, hfx⟩
        · rintro ⟨x, hx, hfx⟩
          rcases List.mem_cons.mp hx with hxe | hxr
          · subst hxe
            rw [hne0] at hfx
            exact absurd hfx (by simp)
          · exact ⟨x, hxr, hfx⟩
      | some res =>
        simp only []
        cases hq : parsePhase rest with
        | error msg =>
          simp only [isErr, true_iff]
          have hqe : isErr (parsePhase rest) = true := by rw [hq]; rfl
          obtain ⟨x, hx, hfx⟩ := ih.mp hqe
          exact ⟨x, List.mem_cons_of_mem e hx, hfx⟩
        | ok pr =>
          obtain ⟨cs, nss⟩ := pr
          have hq' : isErr (parsePhase rest) = false := by rw [hq]; rfl
          have hlhs : isErr (if res.ns = "" then
              Except.ok (res :: cs, nss) else Except.ok (cs, res :: nss) :
                Except String (List ArchivedResource × List ArchivedResource)) = false := by
            by_cases h0 : res.ns = ""
            · rw [if_pos h0]; rfl
            · rw [if_neg h0]; rfl
          rw [hlhs]
          simp only [Bool.false_eq_true, false_iff]
          rintro ⟨x, hx, hfx⟩
          rcases List.mem_cons.mp hx with hxe | hxr
          · subst hxe
            rw [hne0] at hfx
            exact absurd hfx (by simp)
          · have hbad : isErr (parsePhase rest) = true := ih.mpr ⟨x, hxr, hfx⟩
            rw [hq'] at hbad
            exact absurd hbad (by simp)

theorem processEntry_ok_none (e : RawEntry) (h : processEntry e = .ok none) :
    (e.isReg && strEndsWith e.name ".json") = false := by
  unfold processEntry at h
  cases hr : e.isReg with
  | false => simp [hr]
  | true =>
    cases hsuf : strEndsWith e.name ".json" with
    | false => simp [hsuf]
    | true =>
      exfalso
      rw [hr, hsuf] at h
      simp only [Bool.not_true, Bool.false_eq_true, if_false] at h
      cases hp : parseArchiveEntry e.name with
      | error msg => simp [hp] at h
      | ok val =>
        obtain ⟨gvr, ns, nm⟩ := val
        simp only [hp] at h
        cases hc : e.content with
        | none => simp [hc] at h
        | some obj =>
          simp only [hc] at h
          cases hm : ensureMetadata obj nm ns with
          | error msg => simp [hm] at h
          | ok obj' => simp [hm] at h

theorem processEntry_ok_some (e : RawEntry) (res : ArchivedResource)
    (h : processEntry e = .ok (some res)) :
    (e.isReg && strEndsWith e.name ".json") = true := by
  unfold processEntry at h
  cases hr : e.isReg with
  | false => rw [hr] at h; simp at h
  | true =>
    cases hsuf : strEndsWith e.name ".json" with
    | false => rw [hr, hsuf] at h; simp at h
    | true => rfl

theorem parsePhase_facts : ∀ (l : List RawEntry) (cs nss : List ArchivedResource),
    parsePhase l = .ok (cs, nss) →
    (∀ c ∈ cs, c.ns = "") ∧ (∀ x ∈ nss, x.ns ≠ "") ∧
    cs.length + nss.length =
      (l.filter (fun e => e.isReg && strEndsWith e.name ".json")).length := by
  intro l
  induction l with
  | nil =>
    intro cs nss h
    simp only [parsePhase, Except.ok.injEq, Prod.mk.injEq] at h
    obtain ⟨h1, h2⟩ := h
    subst h1
    subst h2
    exact ⟨fun c hc => absurd hc (List.not_mem_nil c),
      fun x hx => absurd hx (List.not_mem_nil x), rfl⟩
  | cons e rest ih =>
    intro cs nss h
    simp only [parsePhase] at h
    cases hp : processEntry e with
    | error msg => rw [hp] at h; simp at h
    | ok val =>
      cases val with
      | none =>
        rw [hp] at h
        simp only at h
        obtain ⟨f1, f2, f3⟩ := ih cs nss h
        refine ⟨f1, f2, ?_⟩
        rw [List.filter_cons_of_neg]
        · exact f3
        · simp [processEntry_ok_none e hp]
      | some res =>
        rw [hp] at h
        simp only at h
        cases hq : parsePhase rest with
        | error msg => rw [hq] at h; simp at h
        | ok pr =>
          obtain ⟨cs', nss'⟩ := pr
          simp only [hq] at h
          obtain ⟨g1, g2, g3⟩ := ih cs' nss' hq
          have hfil : (List.filter (fun e => e.isReg && strEndsWith e.name ".json")
              (e :: rest)).length =
              (List.filter (fun e => e.isReg && strEndsWith e.name ".json")
                rest).length + 1 := by
            rw [List.filter_cons_of_pos]
            · rfl
            · exact processEntry_ok_some e res hp
          by_cases h0 : res.ns = ""
          · rw [if_pos h0] at h
            simp only [Except.ok.injEq, Prod.mk.injEq] at h
            obtain ⟨h1, h2⟩ := h
            subst h1
            subst h2
            refine ⟨?_, g2, ?_⟩
            · intro c hc
              rcases List.mem_cons.mp hc with hce | hcr
              · subst hce
                exact h0
              · exact g1 c hcr
            · rw [hfil, List.length_cons]
              omega
          · rw [if_neg h0] at h
            simp only [Except.ok.injEq, Prod.mk.injEq] at h
            obtain ⟨h1, h2⟩ := h
            subst h1
            subst h2
            refine ⟨g1, ?_, ?_⟩
            · intro x hx
              rcases List.mem_cons.mp hx with hxe | hxr
              · subst hxe
                exact h0
              · exact g2 x hxr
            · rw [hfil, List.length_cons]
              omega

theorem applyAll_append_ok : ∀ (l₁ l₂ : List ArchivedResource)
    (s s₁ s₂ : ClusterState) (n₁ n₂ : Nat) (t₁ t₂ : List RestoreAction),
    applyAll s l₁ = (s₁, .ok (n₁, t₁)) → applyAll s₁ l₂ = (s₂, .ok (n₂, t₂)) →
    applyAll s (l₁ ++ l₂) = (s₂, .ok (n₁ + n₂, t₁ ++ t₂)) := by
  intro l₁
  induction l₁ with
  | nil =>
    intro l₂ s s₁ s₂ n₁ n₂ t₁ t₂ h1 h2
    simp only [applyAll, Prod.mk.injEq, Except.ok.injEq] at h1
    obtain ⟨hs, hn, ht⟩ := h1
    subst hs
    subst hn
    subst ht
    simp only [List.nil_append, Nat.zero_add]
    exact h2
  | cons res rest ih =>
    intro l₂ s s₁ s₂ n₁ n₂ t₁ t₂ h1 h2
    simp only [applyAll] at h1
    cases ha : applyOne s res with
    | error msg => rw [ha] at h1; simp at h1
    | ok pr =>
      obtain ⟨s', act⟩ := pr
      rw [ha] at h1
      simp only at h1
      cases hb : applyAll s' rest with
      | mk sm r =>
        cases r with
        | error msg => rw [hb] at h1; simp at h1
        | ok pr2 =>
          obtain ⟨m, tr'⟩ := pr2
          rw [hb] at h1
          simp only [Prod.mk.injEq, Except.ok.injEq] at h1
          obtain ⟨hs, hn, ht⟩ := h1
          subst hs
          subst hn
          subst ht
          have hrec := ih l₂ s' _ s₂ m n₂ tr' t₂ hb h2
          have hconsapp : (res :: rest) ++ l₂ = res :: (rest ++ l₂) := rfl
          rw [hconsapp]
          simp only [applyAll, ha, hrec]
          have harith : m + n₂ + 1 = m + 1 + n₂ := by omega
          rw [harith]
          rfl

/-- C4 (amended).  Restore errors exactly when the archive cannot be opened,
some processed entry's path fails to parse, some body fails to decode, some
decoded object has no resolvable name, or the apply phase fails; a
parse-stage failure leaves the cluster untouched; and an "already exists"
create conflict always transitions to fetch + resource-version copy +
update, which succeeds. -/
theorem RestoreBackup_error_spec (s : ClusterState) (archive : Option (List RawEntry)) :
    (isErr (RestoreBackup s archive).2 = true ↔
      (archive = none ∨
        ∃ l, archive = some l ∧
          ((∃ e ∈ l, pathParseFails e = true) ∨
            (∃ e ∈ l, decodeFails e = true) ∨
            (∃ e ∈ l, nameResolveFails e = true) ∨
            (∃ cs nss, parsePhase l = .ok (cs, nss) ∧
              isErr (applyAll s (cs ++ nss)).2 = true)))) ∧
    (∀ l, archive = some l → isErr (parsePhase l) = true →
      (RestoreBackup s archive).1 = s) ∧
    (∀ st res, (lookupStore st (keyOf res)).isSome = true →
      ∃ st', applyOne st res = .ok (st', .updated (keyOf res))) := by
  refine ⟨?_, ?_, ?_⟩
  · cases archive with
    | none =>
      constructor
      · intro _
        exact Or.inl rfl
      · intro _
        rfl
    | some l =>
      cases hq : parsePhase l with
      | error msg =>
        obtain ⟨e, he, hfe⟩ := (parsePhase_err_iff l).mp (by rw [hq]; rfl)
        have hRB : RestoreBackup s (some l) = (s, Except.error msg) := by
          simp only [RestoreBackup, hq]
        rw [hRB]
        constructor
        · intro _
          refine Or.inr ⟨l, rfl, ?_⟩
          rcases (processEntry_err_iff e).mp hfe with h1 | h2 | h3
          · exact Or.inl ⟨e, he, h1⟩
          · exact Or.inr (Or.inl ⟨e, he, h2⟩)
          · exact Or.inr (Or.inr (Or.inl ⟨e, he, h3⟩))
        · intro _
          rfl
      | ok pr =>
        obtain ⟨cs, nss⟩ := pr
        have hRB : RestoreBackup s (some l) = applyAll s (cs ++ nss) := by
          simp only [RestoreBackup, hq]
        rw [hRB]
        have hnofat : ¬ ∃ e ∈ l, isErr (processEntry e) = true := by
          intro hex
          have hbad : isErr (parsePhase l) = true := (parsePhase_err_iff l).mpr hex
          rw [hq] at hbad
          exact absurd hbad (by simp [isErr])
        constructor
        · intro herr
          exact Or.inr ⟨l, rfl, Or.inr (Or.inr (Or.inr ⟨cs, nss, hq, herr⟩))⟩
        · rintro (hnone | ⟨l', hl', harms⟩)
          · exact absurd hnone (by simp)
          · injection hl' with hll
            subst hll
            rcases harms with h1 | h2 | h3 | h4
            · exfalso
              obtain ⟨e, he, hfe⟩ := h1
              exact hnofat ⟨e, he, (processEntry_err_iff e).mpr (Or.inl hfe)⟩
            · exfalso
              obtain ⟨e, he, hfe⟩ := h2
              exact hnofat ⟨e, he, (processEntry_err_iff e).mpr (Or.inr (Or.inl hfe))⟩
            · exfalso
              obtain ⟨e, he, hfe⟩ := h3
              exact hnofat ⟨e, he, (processEntry_err_iff e).mpr (Or.inr (Or.inr hfe))⟩
            · obtain ⟨cs', nss', hq', herr'⟩ := h4
              rw [hq] at hq'
              injection hq' with hpr
              injection hpr with hcs hnss
              subst hcs
              subst hnss
              exact herr'
  · intro l hl hperr
    subst hl
    cases hq : parsePhase l with
    | error msg =>
      simp only [RestoreBackup, hq]
    | ok pr =>
      rw [hq] at hperr
      exact absurd hperr (by simp [isErr])
  · intro st res hpk
    obtain ⟨st', heq, _⟩ := applyOne_present st res hpk
    exact ⟨st', heq⟩

/-- Witness for C4's theorem at a concrete archive: the undecodable entry
makes restore fail, and the cluster is untouched. -/
theorem RestoreBackup_error_spec_witness :
    isErr (RestoreBackup ⟨[], 1⟩ (some [badEntry])).2 = true ∧
    (RestoreBackup ⟨[], 1⟩ (some [badEntry])).1 = ⟨[], 1⟩ :=
  ⟨(RestoreBackup_error_spec ⟨[], 1⟩ (some [badEntry])).1.mpr
      (Or.inr ⟨[badEntry], rfl,
        Or.inr (Or.inl ⟨badEntry, List.mem_cons_self badEntry [], by decide⟩)⟩),
    (RestoreBackup_error_spec ⟨[], 1⟩ (some [badEntry])).2.1 [badEntry] rfl (by decide)⟩

/-- Counterexample to C4 as stated: restoring an archive whose only entry
has a parseable path, a resolvable name, and an undecodable body errors,
although the archive opened, no path failed to parse, no object lacked a
name, and the apply phase was never reached (no create/update failed). -/
theorem RestoreBackup_error_taxonomy_counterexample :
    isErr (RestoreBackup ⟨[], 1⟩ (some [badEntry])).2 = true ∧
    (some [badEntry] : Option (List RawEntry)) ≠ none ∧
    (¬ ∃ e ∈ [badEntry], pathParseFails e = true) ∧
    (¬ ∃ e ∈ [badEntry], nameResolveFails e = true) ∧
    (¬ ∃ cs nss, parsePhase [badEntry] = .ok (cs, nss)) := by
  refine ⟨by decide, by simp, by decide, by decide, ?_⟩
  rintro ⟨cs, nss, h⟩
  have h' : (Except.error "failed to unmarshal entry" :
      Except String (List ArchivedResource × List ArchivedResource)) =
      Except.ok (cs, nss) := h
  exact Except.noConfusion h'

/-- C5.  If a restore succeeds, re-running it on the resulting cluster
succeeds with the same applied count (the number of regular `.json`
entries), every object takes the "already exists" update path, and no new
key is created — objects are updated in place, not duplicated. -/
theorem RestoreBackup_idempotent (s s1 : ClusterState) (l : List RawEntry)
    (n1 : Nat) (tr1 : List RestoreAction)
    (h : RestoreBackup s (some l) = (s1, .ok (n1, tr1))) :
    ∃ s2 tr2,
      RestoreBackup s1 (some l) = (s2, .ok (n1, tr2)) ∧
      n1 = (l.filter (fun e => e.isReg && strEndsWith e.name ".json")).length ∧
      (∀ a ∈ tr2, ∃ k, a = RestoreAction.updated k) ∧
      (∀ k, (lookupStore s2 k).isSome = (lookupStore s1 k).isSome) := by
  cases hq : parsePhase l with
  | error msg =>
    rw [show RestoreBackup s (some l) = (s, Except.error msg) from by
      simp only [RestoreBackup, hq]] at h
    simp at h
  | ok pr =>
    obtain ⟨cs, nss⟩ := pr
    have hRB : RestoreBackup s (some l) = applyAll s (cs ++ nss) := by
      simp only [RestoreBackup, hq]
    rw [hRB] at h
    obtain ⟨hlen, htrace, hmono, hkeys⟩ := applyAll_ok_inv (cs ++ nss) s s1 n1 tr1 h
    obtain ⟨s2, tr2, happ, hupd, hpres⟩ := applyAll_all_present (cs ++ nss) s1 hkeys
    refine ⟨s2, tr2, ?_, ?_, hupd, hpres⟩
    · have hRB2 : RestoreBackup s1 (some l) = applyAll s1 (cs ++ nss) := by
        simp only [RestoreBackup, hq]
      rw [hRB2, happ, hlen]
    · obtain ⟨f1, f2, f3⟩ := parsePhase_facts l cs nss hq
      rw [hlen, List.length_append]
      exact f3

/-- Witness for C5 at the spec's concrete archive (namespace + configmap):
the second run succeeds with count 2, all-update trace, same keys. -/
theorem RestoreBackup_idempotent_witness :
    ∃ s2 tr2,
      RestoreBackup demoS1 (some demoArchive) = (s2, .ok (2, tr2)) ∧
      2 = (demoArchive.filter (fun e => e.isReg && strEndsWith e.name ".json")).length ∧
      (∀ a ∈ tr2, ∃ k, a = RestoreAction.updated k) ∧
      (∀ k, (lookupStore s2 k).isSome = (lookupStore demoS1 k).isSome) :=
  RestoreBackup_idempotent demoS0 demoS1 demoArchive 2 demoTr1 (by rfl)

/-- C6.  When every namespaced entry's namespace either pre-exists or is a
cluster-scoped namespace object of the same archive, restore succeeds and
applies all cluster-scoped entries strictly before any namespaced entry,
whatever order the raw archive listed them in. -/
theorem RestoreBackup_cluster_before_namespaced (s : ClusterState)
    (l : List RawEntry) (cs nss : List ArchivedResource)
    (hp : parsePhase l = .ok (cs, nss))
    (hcover : ∀ res ∈ nss,
      namespaceExists s res.ns = true ∨ ∃ c ∈ cs, keyOf c = (nsGVR, "", res.ns)) :
    ∃ s' tr, RestoreBackup s (some l) = (s', .ok ((cs ++ nss).length, tr)) ∧
      tr.map actionKey = cs.map keyOf ++ nss.map keyOf := by
  obtain ⟨f1, f2, f3⟩ := parsePhase_facts l cs nss hp
  obtain ⟨s₁, tr₁, ha1, htr1, hmono1, hkeys1⟩ := applyAll_cover cs s
    (fun res hres hrns => absurd (f1 res hres) hrns)
  obtain ⟨s₂, tr₂, ha2, htr2, hmono2, hkeys2⟩ := applyAll_cover nss s₁
    (fun res hres hrns => by
      rcases hcover res hres with h1 | ⟨c, hc, hkc⟩
      · exact Or.inl (hmono1 (nsGVR, "", res.ns) h1)
      · have hck := hkeys1 c hc
        rw [hkc] at hck
        exact Or.inl hck)
  refine ⟨s₂, tr₁ ++ tr₂, ?_, ?_⟩
  · have hRB : RestoreBackup s (some l) = applyAll s (cs ++ nss) := by
      simp only [RestoreBackup, hp]
    rw [hRB, applyAll_append_ok cs nss s s₁ s₂ cs.length nss.length tr₁ tr₂ ha1 ha2,
      List.length_append]
  · rw [List.map_append, htr1, htr2]

/-- Witness for C6: the demo archive with the namespace object listed after
the configmap still restores, namespace first. -/
theorem RestoreBackup_cluster_before_namespaced_witness :
    ∃ s' tr, RestoreBackup demoS0 (some demoArchiveRev) =
        (s', .ok ((demoParsedRev.1 ++ demoParsedRev.2).length, tr)) ∧
      tr.map actionKey = demoParsedRev.1.map keyOf ++ demoParsedRev.2.map keyOf :=
  RestoreBackup_cluster_before_namespaced demoS0 demoArchiveRev
    demoParsedRev.1 demoParsedRev.2 (by rfl) (by decide)

/-- Witness for C2 at the spec's concrete case: of the 48h/2h/1h/0h archives
with one-day retention and a ceiling of two, exactly the 1h and 0h archives
remain. -/
theorem CleanupArchives_retention_witness :
    CleanupArchives (some demoDir) (some 1) (some 2) 0 =
      .ok (some [demoAge1, demoAge0]) :=
  (CleanupArchives_retention demoDir 1 2 0 (by decide)).2

/-- Witness for C10 at the concrete directory. -/
theorem CleanupArchives_frame_witness :
    ∃ d', CleanupArchives (some demoDir) (some 1) (some 2) 0 = .ok (some d') ∧
      d'.Sublist demoDir ∧ ∀ e ∈ demoDir, isArchiveFile e = false → e ∈ d' :=
  CleanupArchives_frame demoDir (some 1) (some 2) 0 (by decide)

/-- Witness for C3 at a concrete coordinate with a named group. -/
theorem parseArchiveEntry_roundtrip_witness :
    parseArchiveEntry (archiveEntryPath ⟨"apps", "v1", "deployments"⟩ "prod" "web") =
      .ok (⟨"apps", "v1", "deployments"⟩, "prod", "web") :=
  parseArchiveEntry_roundtrip ⟨"apps", "v1", "deployments"⟩ "prod" "web"
    (Or.inr (by decide)) (by decide) (by decide) (Or.inr (by decide))
    (by decide) (by decide)

/-- Witness for C7 at the spec's concrete example. -/
theorem getNamespacesToBackup_spec_witness :
    getNamespacesToBackup ⟨[], ["kube-system"], true, []⟩
        (.ok ["default", "kube-system", "custom"]) =
      .ok ["default", "custom"] :=
  (getNamespacesToBackup_spec ⟨[], ["kube-system"], true, []⟩ (by decide)).2.2

/-- Witness for C9: a `Pod` coordinate passes a filter whose entry is
`" pod "` after trimming and case folding. -/
theorem resourceEligible_iff_witness :
    resourceEligible ⟨[], [], true, [" pod ", "ConfigMap"]⟩
        ⟨"pods", "Pod", true, ["get", "list"]⟩ = true :=
  (resourceEligible_iff ⟨[], [], true, [" pod ", "ConfigMap"]⟩
      ⟨"pods", "Pod", true, ["get", "list"]⟩ (by decide)).mpr
    ⟨by decide, by decide, Or.inr ⟨" pod ", by decide, by decide⟩⟩

end BackupOperator
